import Mathlib

/-!
Verification development for the lyabot-nest-backend chat module.

The definitions below are a shallow embedding of the TypeScript source:
  - `src/modules/chat/chat.service.ts`   (ChatService)
  - `src/modules/chat/chat.controller.ts` (ChatController)

JS strings are modelled as `String`/`List Char`, JS numbers appearing as
token counters/durations as `Nat`, JS floating point values that flow
through divisions as `Rat` (exact-arithmetic abstraction), and the two
process-resident `Map`s as functions.  HTTP calls are abstracted by an
input parameter carrying the backend's answer (`Except`/an inductive
transport type): a rejected promise is the `.error` branch.
-/

namespace Lyabot

/-! ### Generation-config resolver (`ChatService.getModelConfig`) -/

structure ModelConfig where
  temperature : ℚ
  maxTokens : ℕ
deriving DecidableEq

/-- What the JS bracket lookup `defaultConfigs[model]` finds: an own
entry of the table literal, a truthy member inherited from
`Object.prototype` (the table is a plain object literal, so the lookup
walks the prototype chain), or `undefined`. -/
inductive ConfigLookup
  | table (cfg : ModelConfig)
  | inherited
  | absent
deriving DecidableEq

/-- String keys at which `Object.prototype` supplies an inherited member;
each of those members (eleven methods and the `__proto__` accessor's
result) is a truthy object. -/
def protoKeys : List String :=
  ["constructor", "hasOwnProperty", "isPrototypeOf", "propertyIsEnumerable",
   "toLocaleString", "toString", "valueOf", "__defineGetter__",
   "__defineSetter__", "__lookupGetter__", "__lookupSetter__", "__proto__"]

/-- The static `defaultConfigs` table literal inside `getModelConfig`,
read with JS bracket lookup: own property first, else the prototype
chain, else `undefined`. -/
def defaultConfigs (model : String) : ConfigLookup :=
  if model = "gemma3:4b" then .table ⟨7/10, 2000⟩
  else if model = "llama3" then .table ⟨6/10, 3000⟩
  else if model = "mistral" then .table ⟨5/10, 2500⟩
  else if model = "default" then .table ⟨3/10, 1500⟩
  else if model ∈ protoKeys then .inherited
  else .absent

/-- `getModelConfig(model, temperature?, maxTokens?)`:
`config = defaultConfigs[model] || defaultConfigs.default` — the `||`
falls back only on the falsy `undefined`, not on a truthy inherited
member, whose `.temperature` and `.maxTokens` reads then give
`undefined` — and each explicit override (`!== undefined`) wins for its
own field.  `none` models `undefined` in both the optional parameters
and the result fields. -/
def getModelConfig (model : String) (temperature : Option ℚ) (maxTokens : Option ℕ) :
    Option ℚ × Option ℕ :=
  let config : Option ℚ × Option ℕ :=
    match defaultConfigs model with
    | .table cfg => (some cfg.temperature, some cfg.maxTokens)
    | .inherited => (none, none)
    | .absent => (some (3/10), some 1500)
  (match temperature with
   | some t => some t
   | none => config.1,
   match maxTokens with
   | some k => some k
   | none => config.2)

/-! ### Response classifier (`ChatService.formatResponse`) -/

structure FormattedResponse where
  type : String
  content : String
  summary : String
  length : ℕ
deriving DecidableEq

/-- `formatResponse(response)`: `isLongResponse = response.length > 200 ||
response.includes('\n')`; summary truncates to 150 chars plus `'...'`
when long. -/
def formatResponse (response : String) : FormattedResponse :=
  let isLongResponse : Bool := decide (response.length > 200) || response.contains '\n'
  { type := if isLongResponse then "detailed" else "simple"
    content := response
    summary := if isLongResponse then response.take 150 ++ "..." else response
    length := response.length }

/-! ### Quality tracker (`ChatService.trackResponseQuality` / `responseMetrics`)

The `Map<string, {total, successful}>` is modelled as a total function
from key to the pair, `(0, 0)` standing for an absent bucket (the source
reads `this.responseMetrics.get(key) || { total: 0, successful: 0 }`).
`new Date().toISOString().split('T')[0]` — the calendar day — is passed
in as the `day` argument. -/

def Metrics : Type := String → ℕ × ℕ

def emptyMetrics : Metrics := fun _ => (0, 0)

/-- `trackResponseQuality(model, success)`: bumps `total`, and
`successful` only when `success` is true, in the `(model, day)` bucket. -/
def trackResponseQuality (model day : String) (success : Bool) (m : Metrics) : Metrics :=
  fun k =>
    if k = model ++ "-" ++ day then
      ((m (model ++ "-" ++ day)).1 + 1,
        (m (model ++ "-" ++ day)).2 + if success then 1 else 0)
    else m k

/-! ### `toFixed(2)` (exact-rounding model of `Number.prototype.toFixed`)

The ECMAScript spec picks the integer `n` with `n / 10^2` closest to the
value, the larger one on ties; for our non-negative inputs this is
`⌊100 q + 1/2⌋`, rendered with exactly two fractional digits. -/

def pad2 (n : ℤ) : String :=
  if n < 10 then "0" ++ toString n else toString n

def toFixed2 (q : ℚ) : String :=
  let n : ℤ := ⌊q * 100 + 1/2⌋
  toString (n / 100) ++ "." ++ pad2 (n % 100)

/-! ### Backend response shapes -/

/-- The non-streaming body of `POST {baseUrl}/api/generate`
(`response.data` in the source).  `total_duration` is optional because
the source guards it with `|| 1`. -/
structure OllamaResponse where
  response : String
  prompt_eval_count : ℕ
  eval_count : ℕ
  total_duration : Option ℕ
deriving DecidableEq

/-- One parsed JSON line of the streaming body.  Counter fields are
optional; `if (parsedData.eval_count)` style truthiness (absent or `0`
both falsy) is modelled at the use sites. -/
structure OllamaChunk where
  response : String
  done : Bool
  eval_count : Option ℕ
  prompt_eval_count : Option ℕ
deriving DecidableEq

structure TokenMetrics where
  prompt : ℕ
  completion : ℕ
  total : ℕ
  speed : String
deriving DecidableEq

/-! ### Single-shot path (`ChatService.generateResponse`)

`axios.post` is abstracted by `transport`; a rejected promise (backend
unreachable / non-2xx) is `.error msg` and makes the whole `async`
method throw, skipping everything after the `await` — in particular
`trackResponseQuality` is never reached on that path. -/

structure SingleShot where
  response : String
  promptTokens : ℕ
  completionTokens : ℕ
  totalTokens : ℕ
deriving DecidableEq

def generateResponse (transport : Except String OllamaResponse)
    (usedModel day : String) (m : Metrics) :
    Except String SingleShot × Metrics :=
  match transport with
  | .error e => (.error e, m)
  | .ok r =>
      (.ok { response := r.response
             promptTokens := r.prompt_eval_count
             completionTokens := r.eval_count
             totalTokens := r.prompt_eval_count + r.eval_count },
       trackResponseQuality usedModel day true m)

/-! ### Streaming path (`ChatService.generateResponseStream`)

Each raw line of the chunked transfer arrives with its wall-clock offset
`(Date.now() - startTime) / 1000`, carried here as an exact `ℚ` per
line.  A line that fails `JSON.parse` is `.malformed`; it is logged and
skipped by the `catch` inside the loop. -/

inductive ChunkLine where
  | parsed (c : OllamaChunk) (elapsedSeconds : ℚ)
  | malformed (elapsedSeconds : ℚ)
deriving DecidableEq

/-- The object `yield`ed per chunk: `{...parsedData, tokens}`. -/
structure StreamEvent where
  chunk : OllamaChunk
  tokens : TokenMetrics
deriving DecidableEq

/-- `if (parsedData.eval_count) completionTokens = parsedData.eval_count`
(absent or `0` is falsy: the running value is kept). -/
def nextCompletion (s1 : ℕ) (c : OllamaChunk) : ℕ :=
  match c.eval_count with
  | some n => if n ≠ 0 then n else s1
  | none => s1

/-- `if (parsedData.done && parsedData.prompt_eval_count) promptTokens = ...`. -/
def nextPrompt (s2 : ℕ) (c : OllamaChunk) : ℕ :=
  if c.done then
    match c.prompt_eval_count with
    | some p => if p ≠ 0 then p else s2
    | none => s2
  else s2

/-- The running `(completionTokens, promptTokens)` pair. -/
def streamStep (s : ℕ × ℕ) (l : ChunkLine) : (ℕ × ℕ) × List StreamEvent :=
  match l with
  | .malformed _ => (s, [])
  | .parsed c t =>
      let completionTokens : ℕ := nextCompletion s.1 c
      let promptTokens : ℕ := nextPrompt s.2 c
      let tokensPerSecond : String :=
        if 0 < t then toFixed2 ((completionTokens : ℚ) / t) else "0"
      ((completionTokens, promptTokens),
        [{ chunk := c
           tokens := { prompt := promptTokens
                       completion := completionTokens
                       total := promptTokens + completionTokens
                       speed := tokensPerSecond } }])

/-- The `for await` loop body of `generateResponseStream`, from state
`s = (completionTokens, promptTokens)`: yielded events plus final state. -/
def runStream (s : ℕ × ℕ) : List ChunkLine → List StreamEvent × (ℕ × ℕ)
  | [] => ([], s)
  | l :: rest =>
      let step := streamStep s l
      let tail := runStream step.1 rest
      (step.2 ++ tail.1, tail.2)

/-- The `eval_count` values reported by the parseable chunks, in
arrival order (used to state the "cumulative counters" hypothesis). -/
def evalCounts (lines : List ChunkLine) : List ℕ :=
  lines.filterMap (fun l =>
    match l with
    | .parsed c _ => c.eval_count
    | .malformed _ => none)

/-- What the backend connection does on one streaming request:
the initial `axios.post` may reject (`failBefore`), and the chunk
iteration may end with a connection error after some lines
(`midFailure = some msg`). -/
inductive StreamTransport where
  | failBefore (msg : String)
  | chunks (lines : List ChunkLine) (midFailure : Option String)
deriving DecidableEq

/-- Outcome of consuming the async generator: it either finishes
normally after yielding `events`, or throws after yielding them. -/
inductive GenOutcome where
  | finished (events : List StreamEvent)
  | threw (events : List StreamEvent) (msg : String)
deriving DecidableEq

def GenOutcome.events : GenOutcome → List StreamEvent
  | .finished es => es
  | .threw es _ => es

/-- `generateResponseStream`: a transport failure before the loop makes
the generator throw on its first resumption with no events; a failure
mid-iteration throws after the events already yielded.  Only a normally
completed loop reaches `trackResponseQuality(usedModel, true)`; no
failure branch records anything (there is no try/catch around the await
or the loop, only around `JSON.parse`). -/
def generateResponseStream (transport : StreamTransport)
    (usedModel day : String) (m : Metrics) : GenOutcome × Metrics :=
  match transport with
  | .failBefore msg => (.threw [] msg, m)
  | .chunks lines midFailure =>
      let run := runStream (0, 0) lines
      match midFailure with
      | some msg => (.threw run.1 msg, m)
      | none => (.finished run.1, trackResponseQuality usedModel day true m)

/-! ### SSE endpoint (`ChatController.streamResponse`)

`from(stream).pipe(map(...))` turns the async generator into the SSE
observable.  A `throw` out of the generator surfaces as an observable
*error* — the connection ends with no further data frame — because the
controller's try/catch wraps only the synchronous setup code (calling an
async generator function does not run its body), so that catch can only
fire for an exception thrown synchronously inside the `try` block,
modelled by `setupError`. -/

structure StreamResponseDto where
  content : String
  done : Bool
  model : String
  error : Option String
  tokens : Option TokenMetrics
deriving DecidableEq

/-- What the SSE subscriber observes: a normally completed sequence of
data frames, or some data frames followed by an abrupt error
termination (no terminal data frame). -/
inductive SseOutcome where
  | completed (frames : List StreamResponseDto)
  | errored (frames : List StreamResponseDto) (msg : String)
deriving DecidableEq

def SseOutcome.frames : SseOutcome → List StreamResponseDto
  | .completed fs => fs
  | .errored fs _ => fs

def eventToDto (usedModel : String) (e : StreamEvent) : StreamResponseDto :=
  { content := e.chunk.response
    done := e.chunk.done
    model := usedModel
    error := none
    tokens := some e.tokens }

def streamResponse (setupError : Option String) (transport : StreamTransport)
    (usedModel day : String) (m : Metrics) : SseOutcome × Metrics :=
  match setupError with
  | some msg =>
      -- the catch block: one frame {content: `Error: ...`, done: true, error}, then complete
      (.completed [{ content := "Error: " ++ msg
                     done := true
                     model := usedModel
                     error := some msg
                     tokens := none }], m)
  | none =>
      let gen := generateResponseStream transport usedModel day m
      match gen.1 with
      | .finished events => (.completed (events.map (eventToDto usedModel)), gen.2)
      | .threw events msg => (.errored (events.map (eventToDto usedModel)) msg, gen.2)

/-! ### Post-processor (`ChatService.postProcessResponse` / `formatLongResponse`)

The three chained `String.replace` regexes are embedded as scanners over
`List Char`, following ECMAScript global-replace semantics (leftmost
match, greedy quantifier with minimal backtracking, scan resumes after
the matched text):

  * `/\n\s*\n/g → '\n\n'`: every match starts at a `'\n'`; the greedy
    `\s*` makes the match run to the *last* `'\n'` of the maximal
    whitespace run that follows, so in each maximal whitespace run the
    span from its first to its last newline is replaced by `"\n\n"`
    (runs with fewer than two newlines are untouched).
  * `/^\s+|\s+$/g → ''` (no `m` flag): strips the leading and trailing
    whitespace runs.
  * `/([.!?])\s*/g → '$1 '`: `\s*` may be empty, so every `.`/`!`/`?`
    is rewritten to itself plus one space, swallowing whatever
    whitespace followed it.

`\s` is modelled by the ASCII whitespace characters. -/

def isWs (c : Char) : Bool :=
  c = ' ' || c = '\t' || c = '\n' || c = '\r' || c = '\x0b' || c = '\x0c'

def isPunct (c : Char) : Bool :=
  c = '.' || c = '!' || c = '?'

/-- Effect of one `/\n\s*\n/g` match on a maximal whitespace run: if the
run holds at least two newlines, the segment from its first to its last
newline collapses to `"\n\n"`. -/
def collapseRun (w : List Char) : List Char :=
  if 2 ≤ w.count '\n' then
    w.takeWhile (· ≠ '\n') ++ '\n' :: '\n' :: (w.reverse.takeWhile (· ≠ '\n')).reverse
  else w

/-- Scanner for `/\n\s*\n/g → '\n\n'`: `pend` accumulates the current
whitespace run in reverse. -/
def cbGo : List Char → List Char → List Char
  | pend, [] => collapseRun pend.reverse
  | pend, c :: rest =>
      if isWs c then cbGo (c :: pend) rest
      else collapseRun pend.reverse ++ c :: cbGo [] rest

def collapseBlank (s : List Char) : List Char := cbGo [] s

/-- `/^\s+|\s+$/g → ''`. -/
def jsTrim (s : List Char) : List Char :=
  ((s.dropWhile isWs).reverse.dropWhile isWs).reverse

/-- Scanner for `/([.!?])\s*/g → '$1 '`; `skip` is true while swallowing
the whitespace that followed a punctuation mark. -/
def spGo : Bool → List Char → List Char
  | _, [] => []
  | skip, c :: rest =>
      if skip && isWs c then spGo true rest
      else if isPunct c then c :: ' ' :: spGo true rest
      else c :: spGo false rest

/-- The three `.replace` steps of `postProcessResponse`, in order. -/
def normalizeResp (s : List Char) : List Char :=
  spGo false (jsTrim (collapseBlank s))

/-- `text.split('. ')` (non-overlapping, left to right; keeps empty
pieces, like the JS `String.prototype.split`). -/
def splitSentences : List Char → List (List Char)
  | '.' :: ' ' :: rest => [] :: splitSentences rest
  | c :: rest =>
      match splitSentences rest with
      | [] => [[c]]
      | p :: ps => (c :: p) :: ps
  | [] => [[]]

/-- The sentence-accumulation loop of `formatLongResponse`, with its
final `formatted + currentParagraph + (endsWith('.') ? '' : '.')`. -/
def formatLongGo : List (List Char) → List Char → List Char → List Char
  | [], formatted, currentParagraph =>
      formatted ++ currentParagraph ++
        (if currentParagraph.getLast? = some '.' then [] else ['.'])
  | sentence :: rest, formatted, currentParagraph =>
      if currentParagraph.length + sentence.length > 120 then
        formatLongGo rest (formatted ++ currentParagraph ++ ['.', '\n', '\n']) sentence
      else
        formatLongGo rest formatted
          (currentParagraph ++ (if currentParagraph.isEmpty then [] else ['.', ' ']) ++ sentence)

def formatLongResponse (text : List Char) : List Char :=
  formatLongGo (splitSentences text) [] []

/-- `processed.includes('\n\n')`. -/
def hasBlank : List Char → Bool
  | '\n' :: '\n' :: _ => true
  | _ :: rest => hasBlank rest
  | [] => false

/-- `postProcessResponse` on the character list: the three replaces,
then the long-unstructured-text re-paragraphing pass. -/
def postProcessList (response : List Char) : List Char :=
  let processed := normalizeResp response
  if processed.length > 150 && !hasBlank processed then formatLongResponse processed
  else processed

def postProcessResponse (response : String) : String :=
  String.mk (postProcessList response.toList)

/-! ### Enhanced path (`ChatService.generateEnhancedResponse`)

The prompt-enhancement string built before the call does not influence
any modelled output (the backend answer is the `transport` input), so it
is not repeated here.  This method does have a try/catch: failure
records a quality failure and rethrows. -/

structure EnhancedResponse where
  content : String
  formatted : FormattedResponse
  tokens : TokenMetrics
  model : String
deriving DecidableEq

/-- `const totalDuration = response.data.total_duration || 1`: an absent
or zero duration becomes 1 (nanosecond). -/
def jsDuration (d : Option ℕ) : ℕ :=
  match d with
  | some x => if x = 0 then 1 else x
  | none => 1

def generateEnhancedResponse (transport : Except String OllamaResponse)
    (usedModel day : String) (m : Metrics) :
    Except String EnhancedResponse × Metrics :=
  match transport with
  | .error e => (.error e, trackResponseQuality usedModel day false m)
  | .ok r =>
      let processedResponse := postProcessResponse r.response
      let tokensPerSecond :=
        toFixed2 ((r.eval_count : ℚ) / ((jsDuration r.total_duration : ℚ) / 10 ^ 9))
      (.ok { content := processedResponse
             formatted := formatResponse processedResponse
             tokens := { prompt := r.prompt_eval_count
                         completion := r.eval_count
                         total := r.prompt_eval_count + r.eval_count
                         speed := tokensPerSecond }
             model := usedModel },
       trackResponseQuality usedModel day true m)

/-! ### Conversation context (`ChatController`)

`conversationContext` is a `Map<string, string[]>` of mutable JS arrays.
To capture aliasing faithfully (`sendEnhancedMessage` returns
`context.length` where `context` is the very array object that
`updateContext` later mutates in place — or a fresh `[]` on a session's
first exchange), arrays live in an explicit `heap` and the map stores
heap indices.  `get(sessionId) || []` allocates a fresh empty array
that is *not* entered into the map. -/

structure ControllerState where
  heap : List (List String)
  sessions : String → Option ℕ

def emptyControllerState : ControllerState := ⟨[], fun _ => none⟩

/-- `getConversationContext(sessionId)`: the stored array (its heap
index), or a freshly allocated `[]`. -/
def getConversationContext (st : ControllerState) (sessionId : String) :
    ℕ × ControllerState :=
  match st.sessions sessionId with
  | some i => (i, st)
  | none => (st.heap.length, ⟨st.heap ++ [[]], st.sessions⟩)

/-- The in-place mutation performed by `updateContext` on the array:
`push('Usuario: ...', 'Asistente: ...')`, then `splice(0, 2)` when the
length exceeds 6. -/
def contextAfterUpdate (context : List String) (prompt content : String) : List String :=
  let pushed := context ++ ["Usuario: " ++ prompt, "Asistente: " ++ content]
  if pushed.length > 6 then pushed.drop 2 else pushed

/-- `updateContext(sessionId, prompt, response)`: looks the array up
again, mutates it, and `set`s it back into the map. -/
def updateContext (st : ControllerState) (sessionId prompt content : String) :
    ControllerState :=
  let g := getConversationContext st sessionId
  let arr := g.2.heap.getD g.1 []
  ⟨g.2.heap.set g.1 (contextAfterUpdate arr prompt content),
    fun k => if k = sessionId then some g.1 else g.2.sessions k⟩

/-- The context-relevant slice of `sendEnhancedMessage` with
`useContext = true`: grab the `context` reference, let the service
produce `respContent`, run `updateContext`, and report
`contextLength: context.length` — read through the original reference
*after* the update. -/
def sendEnhancedMessage (st : ControllerState) (sessionId prompt respContent : String) :
    ℕ × ControllerState :=
  let g := getConversationContext st sessionId
  let st2 := updateContext g.2 sessionId prompt respContent
  ((st2.heap.getD g.1 []).length, st2)

/-- The stored context as `GET /chat/context-info` would report it
(`this.conversationContext.get(sessionId) || []`). -/
def contextOf (st : ControllerState) (sessionId : String) : List String :=
  match st.sessions sessionId with
  | some i => st.heap.getD i []
  | none => []

/-- `N` successive successful context-using enhanced exchanges for one
session: each exchange is a `(prompt, assistant answer)` pair. -/
def runExchanges (sessionId : String) (st : ControllerState) :
    List (String × String) → ControllerState
  | [] => st
  | e :: rest => runExchanges sessionId (sendEnhancedMessage st sessionId e.1 e.2).2 rest

/-- One exchange as its two stored, labeled entries. -/
def pairFmt (e : String × String) : List String :=
  ["Usuario: " ++ e.1, "Asistente: " ++ e.2]

/-- The turns a context should hold after the given exchanges: the last
three pairs, flattened in order, each pair user-labeled then
assistant-labeled. -/
def expectedContext (exs : List (String × String)) : List String :=
  (exs.drop (exs.length - 3)).flatMap pairFmt

/-! ### Normal forms of `normalizeResp` (verification scaffolding)

To reason about idempotence of the three chained replaces, the outputs
of `normalizeResp` are characterized by a deterministic finite
automaton.  States: 8 = start, 0 = after an ordinary character, 1–4 =
inside a whitespace run (1: no newline yet, 2: a newline was just read,
3: one newline read earlier, 4: an adjacent newline pair read), 5 =
dead, 6 = just after a punctuation mark (a single space must follow),
7 = after that space (whitespace must not follow). -/

def step (st : ℕ) (c : Char) : ℕ :=
  if st = 5 then 5
  else if st = 6 then (if c = ' ' then 7 else 5)
  else if isPunct c then 6
  else if st = 7 then (if isWs c then 5 else 0)
  else if isWs c then
    (if st = 8 then 5
     else if st = 0 then (if c = '\n' then 2 else 1)
     else if st = 1 then (if c = '\n' then 2 else 1)
     else if st = 2 then (if c = '\n' then 4 else 3)
     else if st = 3 then (if c = '\n' then 5 else 3)
     else (if c = '\n' then 5 else 4))
  else 0

/-- Acceptance: the empty string, a string ending in an ordinary
character, or a string ending in punctuation plus one space. -/
def isAcc (f : ℕ) : Prop := f = 8 ∨ f = 0 ∨ f = 7

/-- A string is in `normalizeResp`-normal form when the automaton
accepts it. -/
def isNormal (y : List Char) : Prop := isAcc (y.foldl step 8)

/-- The run-structure sub-automaton (no punctuation/trim discipline):
used to state that every whitespace run of a string is one the blank
collapser leaves alone. -/
def stepR (st : ℕ) (c : Char) : ℕ :=
  if st = 5 then 5
  else if isWs c then
    (if st = 0 then (if c = '\n' then 2 else 1)
     else if st = 1 then (if c = '\n' then 2 else 1)
     else if st = 2 then (if c = '\n' then 4 else 3)
     else if st = 3 then (if c = '\n' then 5 else 3)
     else (if c = '\n' then 5 else 4))
  else 0

def RunsGood (y : List Char) : Prop := y.foldl stepR 0 ≠ 5

/-- Removing the single trailing space of a terminal
punctuation-plus-space pair (what trimming does to a normal form). -/
def stripPS : List Char → List Char
  | [] => []
  | [c] => [c]
  | c :: d :: r =>
      match r with
      | [] => if isPunct c && (d = ' ') then [c] else [c, d]
      | e :: r2 => c :: stripPS (d :: e :: r2)

/-- The invariant tying the (reversed) pending whitespace run
accumulated by `cbGo` to the automaton state walking it. -/
def InvR (pend : List Char) (st : ℕ) : Prop :=
  (∀ c ∈ pend, isWs c = true) ∧
  ((st = 1 ∧ '\n' ∉ pend) ∨
   (st = 2 ∧ ∃ b, pend = '\n' :: b ∧ '\n' ∉ b) ∨
   (st = 3 ∧ ∃ a b, pend = a ++ '\n' :: b ∧ a ≠ [] ∧ '\n' ∉ a ∧ '\n' ∉ b) ∨
   (st = 4 ∧ ∃ a b, pend = a ++ '\n' :: '\n' :: b ∧ '\n' ∉ a ∧ '\n' ∉ b))

/-- Concrete stream used to instantiate the token-accounting theorem
(the two-chunk scenario from the specification). -/
def demoLines : List ChunkLine :=
  [ChunkLine.parsed ⟨"Hola", false, some 5, none⟩ 1,
   ChunkLine.parsed ⟨"!", true, some 12, some 3⟩ 2]

/-! ## Theorems -/

/-- C3: the generation-config resolver is NOT total.  `defaultConfigs`
is a plain object literal, so `defaultConfigs[model]` walks the
prototype chain: at `model = "constructor"` (likewise `"toString"`,
`"__proto__"`, and the other `Object.prototype` keys) the lookup finds a
truthy inherited member, the `||` fallback to the `"default"` entry
never fires, and both returned fields read `undefined` off that member
instead of the claimed positive numbers. -/
theorem C3_failing_eval :
    getModelConfig "constructor" none none = (none, none) ∧
      getModelConfig "toString" none none = (none, none) ∧
      getModelConfig "__proto__" none none = (none, none) ∧
      getModelConfig "constructor" none none ≠ (some (3/10), some 1500) := by
  decide

/-- C8: classification is `"detailed"` iff the text is longer than 200
characters or contains a newline; when detailed the summary is the first
150 characters plus `"..."`, otherwise the full text; content and length
pass through unchanged. -/
theorem C8_formatResponse_classification :
    ∀ text : String,
      ((formatResponse text).type = "detailed" ↔
        (200 < text.length ∨ text.contains '\n' = true)) ∧
      ((formatResponse text).type = "simple" ↔
        ¬(200 < text.length ∨ text.contains '\n' = true)) ∧
      (formatResponse text).summary =
        (if 200 < text.length ∨ text.contains '\n' = true
          then text.take 150 ++ "..." else text) ∧
      (formatResponse text).content = text ∧
      (formatResponse text).length = text.length := by
  intro text
  by_cases h : 200 < text.length ∨ text.contains '\n' = true
  · have hb : (decide (text.length > 200) || text.contains '\n') = true := by
      rcases h with h | h
      · simp [h]
      · simp [h]
    simp [formatResponse, hb, h]
  · have hb : (decide (text.length > 200) || text.contains '\n') = false := by
      push_neg at h
      simp [h.1, h.2]
    simp [formatResponse, hb, h]

/-- C9: the enhanced path's reported token speed is
`completionTokens / max(totalDurationNanos, 1) * 1e9`, rendered by the
two-decimal formatter; a zero or absent duration is treated as one
nanosecond, so the divisor is never zero. -/
theorem C9_enhanced_token_speed :
    ∀ (r : OllamaResponse) (usedModel day : String) (m : Metrics),
      ∃ resp,
        (generateEnhancedResponse (.ok r) usedModel day m).1 = .ok resp ∧
        resp.tokens.speed =
          toFixed2 ((r.eval_count : ℚ) /
            (max ((r.total_duration.getD 0 : ℕ) : ℚ) 1) * 10 ^ 9) ∧
        1 ≤ jsDuration r.total_duration ∧
        ((jsDuration r.total_duration : ℚ) / 10 ^ 9) ≠ 0 := by
  intro r usedModel day m
  have hdur : (jsDuration r.total_duration : ℚ) = max ((r.total_duration.getD 0 : ℕ) : ℚ) 1 := by
    unfold jsDuration
    rcases r.total_duration with _ | d
    · norm_num
    · by_cases hd : d = 0
      · simp [hd]
      · have h1 : 1 ≤ d := Nat.one_le_iff_ne_zero.mpr hd
        have : (1 : ℚ) ≤ (d : ℚ) := by exact_mod_cast h1
        simp [hd, Option.getD, max_eq_left this]
  have hpos : (0 : ℚ) < (jsDuration r.total_duration : ℚ) := by
    rw [hdur]
    have : (0 : ℚ) < 1 := one_pos
    exact lt_max_of_lt_right this
  refine ⟨_, rfl, ?_, ?_, ?_⟩
  · rw [hdur]
    field_simp
  · unfold jsDuration
    rcases r.total_duration with _ | d
    · simp
    · by_cases hd : d = 0
      · simp [hd]
      · simp [hd]
        omega
  · intro hc
    rw [div_eq_zero_iff] at hc
    rcases hc with hc | hc
    · exact absurd hc (ne_of_gt hpos)
    · norm_num at hc

/-- C4 (amended): only the enhanced path records every attempt (total
always incremented, successful only on success, an upstream failure
recorded as a quality failure); the single-shot and streaming paths
record a success only when they complete — their failures leave the
metrics untouched. -/
theorem C4_quality_tracking_amended :
    ∀ (usedModel day : String) (m : Metrics) (r : OllamaResponse) (e : String)
      (lines : List ChunkLine) (msg : String),
      ((generateEnhancedResponse (.ok r) usedModel day m).2 (usedModel ++ "-" ++ day) =
        ((m (usedModel ++ "-" ++ day)).1 + 1, (m (usedModel ++ "-" ++ day)).2 + 1)) ∧
      ((generateEnhancedResponse (.error e) usedModel day m).2 (usedModel ++ "-" ++ day) =
        ((m (usedModel ++ "-" ++ day)).1 + 1, (m (usedModel ++ "-" ++ day)).2)) ∧
      ((generateResponse (.ok r) usedModel day m).2 (usedModel ++ "-" ++ day) =
        ((m (usedModel ++ "-" ++ day)).1 + 1, (m (usedModel ++ "-" ++ day)).2 + 1)) ∧
      ((generateResponse (.error e) usedModel day m).2 = m) ∧
      ((generateResponseStream (.chunks lines none) usedModel day m).2
          (usedModel ++ "-" ++ day) =
        ((m (usedModel ++ "-" ++ day)).1 + 1, (m (usedModel ++ "-" ++ day)).2 + 1)) ∧
      ((generateResponseStream (.failBefore e) usedModel day m).2 = m) ∧
      ((generateResponseStream (.chunks lines (some msg)) usedModel day m).2 = m) := by
  intro usedModel day m r e lines msg
  refine ⟨?_, ?_, ?_, rfl, ?_, rfl, rfl⟩ <;>
    simp [generateEnhancedResponse, generateResponse, generateResponseStream,
      trackResponseQuality]

/-- C4 counterexample: a failing single-shot call (`UpstreamError`) does
NOT increment the quality bucket's total counter, contrary to the claim
that every attempt does. -/
theorem C4_counterexample :
    ¬ (((generateResponse (.error "connect ECONNREFUSED") "m" "2026-10-12"
          emptyMetrics).2 ("m" ++ "-" ++ "2026-10-12")).1 =
        (emptyMetrics ("m" ++ "-" ++ "2026-10-12")).1 + 1) := by
  decide

/-- C7: a stream line that fails to parse as JSON is skipped: it yields
no event, leaves the accumulated token counts unchanged, and the
remaining lines produce exactly what they would have produced without
it. -/
theorem C7_malformed_line_skipped :
    ∀ (pre post : List ChunkLine) (t : ℚ) (s : ℕ × ℕ),
      runStream s (pre ++ ChunkLine.malformed t :: post) = runStream s (pre ++ post) := by
  intro pre post t s
  induction pre generalizing s with
  | nil => simp [runStream, streamStep]
  | cons l rest ih =>
      simp only [List.cons_append, runStream, List.append_eq]
      rw [ih]

theorem nextCompletion_none {c : OllamaChunk} (s1 : ℕ) (h : c.eval_count = none) :
    nextCompletion s1 c = s1 := by
  simp [nextCompletion, h]

theorem nextCompletion_some {c : OllamaChunk} {n : ℕ} (s1 : ℕ)
    (h : c.eval_count = some n) :
    nextCompletion s1 c = if n ≠ 0 then n else s1 := by
  simp [nextCompletion, h]

/-- Every yielded event's `total` is built as `prompt + completion`. -/
theorem runStream_total (lines : List ChunkLine) :
    ∀ (s : ℕ × ℕ), ∀ e ∈ (runStream s lines).1,
      e.tokens.total = e.tokens.prompt + e.tokens.completion := by
  induction lines with
  | nil => intro s e he; simp [runStream] at he
  | cons l rest ih =>
      intro s e he
      rcases l with ⟨c, t⟩ | t
      · simp only [runStream, streamStep, List.mem_append] at he
        rcases he with he | he
        · simp only [List.mem_singleton] at he
          subst he
          rfl
        · exact ih _ e he
      · simp only [runStream, streamStep, List.nil_append] at he
        exact ih _ e he

/-- If the pending completion count is below every upcoming reported
`eval_count` and those are non-decreasing, the completion counts carried
by the yielded events form a non-decreasing chain (headed by the pending
count). -/
theorem runStream_completion_mono (lines : List ChunkLine) :
    ∀ (s : ℕ × ℕ), (∀ n ∈ evalCounts lines, s.1 ≤ n) →
      List.Sorted (· ≤ ·) (evalCounts lines) →
      List.Chain' (· ≤ ·)
        (s.1 :: ((runStream s lines).1).map (fun e => e.tokens.completion)) := by
  induction lines with
  | nil => intro s _ _; simp [runStream]
  | cons l rest ih =>
      intro s hbound hsorted
      rcases l with ⟨c, t⟩ | t
      · simp only [runStream, streamStep, List.map_cons, List.singleton_append]
        refine List.chain'_cons.mpr ⟨?_, ?_⟩
        · rcases hec : c.eval_count with _ | n
          · rw [nextCompletion_none s.1 hec]
          · rw [nextCompletion_some s.1 hec]
            split_ifs with hn
            · refine hbound n ?_
              simp [evalCounts, List.filterMap_cons, hec]
            · exact le_refl _
        · refine ih (nextCompletion s.1 c, nextPrompt s.2 c) ?_ ?_
          · intro m hm
            show nextCompletion s.1 c ≤ m
            rcases hec : c.eval_count with _ | n
            · rw [nextCompletion_none s.1 hec]
              refine hbound m ?_
              simp only [evalCounts, List.filterMap_cons, hec]
              exact hm
            · have hcounts : evalCounts (ChunkLine.parsed c t :: rest) =
                  n :: evalCounts rest := by
                simp [evalCounts, List.filterMap_cons, hec]
              rw [hcounts] at hbound hsorted
              rw [nextCompletion_some s.1 hec]
              split_ifs with hn
              · exact (List.sorted_cons.mp hsorted).1 m hm
              · exact hbound m (List.mem_cons_of_mem _ hm)
          · rcases hec : c.eval_count with _ | n
            · have hcounts : evalCounts (ChunkLine.parsed c t :: rest) =
                  evalCounts rest := by
                simp [evalCounts, List.filterMap_cons, hec]
              rw [hcounts] at hsorted
              exact hsorted
            · have hcounts : evalCounts (ChunkLine.parsed c t :: rest) =
                  n :: evalCounts rest := by
                simp [evalCounts, List.filterMap_cons, hec]
              rw [hcounts] at hsorted
              exact (List.sorted_cons.mp hsorted).2
      · have hcounts : evalCounts (ChunkLine.malformed t :: rest) = evalCounts rest := by
          simp [evalCounts, List.filterMap_cons]
        rw [hcounts] at hbound hsorted
        simp only [runStream, streamStep, List.nil_append]
        exact ih s hbound hsorted

/-- If the last line is a parsed `done` chunk reporting both counters
(nonzero, hence truthy), the last yielded event carries them and their
sum. -/
theorem runStream_last_done (lines : List ChunkLine) :
    ∀ (s : ℕ × ℕ) (c : OllamaChunk) (t : ℚ) (ec pc : ℕ),
      lines.getLast? = some (ChunkLine.parsed c t) → c.done = true →
      c.eval_count = some ec → ec ≠ 0 → c.prompt_eval_count = some pc → pc ≠ 0 →
      ∃ e, ((runStream s lines).1).getLast? = some e ∧
        e.tokens.prompt = pc ∧ e.tokens.completion = ec ∧ e.tokens.total = pc + ec := by
  induction lines with
  | nil => intro s c t ec pc hlast; simp at hlast
  | cons l rest ih =>
      intro s c t ec pc hlast hdone hec hecn hpc hpcn
      rcases rest with _ | ⟨l2, rest2⟩
      · simp only [List.getLast?_singleton, Option.some.injEq] at hlast
        subst hlast
        simp [runStream, streamStep, nextCompletion, nextPrompt,
          hec, hecn, hdone, hpc, hpcn]
      · have hlast2 : (l2 :: rest2).getLast? = some (ChunkLine.parsed c t) := by
          simpa using hlast
        obtain ⟨e, he, h1, h2, h3⟩ :=
          ih (streamStep s l).1 c t ec pc hlast2 hdone hec hecn hpc hpcn
        refine ⟨e, ?_, h1, h2, h3⟩
        have hne : ((runStream (streamStep s l).1 (l2 :: rest2)).1) ≠ [] := by
          intro hnil
          rw [hnil] at he
          simp at he
        show ((streamStep s l).2 ++
          (runStream (streamStep s l).1 (l2 :: rest2)).1).getLast? = some e
        rw [List.getLast?_append_of_ne_nil _ hne]
        exact he

/-- While no parsed chunk has `done`, the prompt count stays at its
initial zero: it is populated only by a terminal chunk. -/
theorem runStream_prompt_zero (lines : List ChunkLine) :
    ∀ (s : ℕ × ℕ), s.2 = 0 →
      (∀ c t, ChunkLine.parsed c t ∈ lines → c.done = false) →
      ∀ e ∈ (runStream s lines).1, e.tokens.prompt = 0 := by
  induction lines with
  | nil => intro s _ _ e he; simp [runStream] at he
  | cons l rest ih =>
      intro s hs hnd e he
      rcases l with ⟨c, t⟩ | t
      · have hdone : c.done = false := hnd c t (List.mem_cons_self _ _)
        simp only [runStream, streamStep, List.mem_append, List.mem_singleton] at he
        rcases he with he | he
        · subst he
          show nextPrompt s.2 c = 0
          simp [nextPrompt, hdone, hs]
        · refine ih (nextCompletion s.1 c, nextPrompt s.2 c) ?_
            (fun c2 t2 hm => hnd c2 t2 (List.mem_cons_of_mem _ hm)) e he
          simp [nextPrompt, hdone, hs]
      · simp only [runStream, streamStep, List.nil_append] at he
        exact ih s hs (fun c2 t2 hm => hnd c2 t2 (List.mem_cons_of_mem _ hm)) e he

/-- C5: every token-metrics record produced — single-shot result,
enhanced result, or streaming chunk — satisfies `total = prompt +
completion`; when the backend's cumulative `eval_count` values are
non-decreasing, the completion counts on successive yielded events are
non-decreasing; a terminal chunk reporting both counters yields a final
event carrying the true totals, and the prompt count is populated only
by a terminal chunk. -/
theorem C5_token_accounting :
    ∀ (lines : List ChunkLine) (r : OllamaResponse) (usedModel day : String) (m : Metrics),
      (∀ res, (generateResponse (.ok r) usedModel day m).1 = .ok res →
        res.totalTokens = res.promptTokens + res.completionTokens) ∧
      (∀ res, (generateEnhancedResponse (.ok r) usedModel day m).1 = .ok res →
        res.tokens.total = res.tokens.prompt + res.tokens.completion) ∧
      (∀ e ∈ (runStream (0, 0) lines).1,
        e.tokens.total = e.tokens.prompt + e.tokens.completion) ∧
      (List.Sorted (· ≤ ·) (evalCounts lines) →
        List.Chain' (· ≤ ·)
          (((runStream (0, 0) lines).1).map (fun e => e.tokens.completion))) ∧
      (∀ (c : OllamaChunk) (t : ℚ) (ec pc : ℕ),
        lines.getLast? = some (ChunkLine.parsed c t) → c.done = true →
        c.eval_count = some ec → ec ≠ 0 → c.prompt_eval_count = some pc → pc ≠ 0 →
        ∃ e, ((runStream (0, 0) lines).1).getLast? = some e ∧
          e.tokens.prompt = pc ∧ e.tokens.completion = ec ∧
          e.tokens.total = pc + ec) ∧
      ((∀ c t, ChunkLine.parsed c t ∈ lines → c.done = false) →
        ∀ e ∈ (runStream (0, 0) lines).1, e.tokens.prompt = 0) := by
  intro lines r usedModel day m
  refine ⟨?_, ?_, runStream_total lines (0, 0), ?_, ?_, ?_⟩
  · intro res hres
    simp only [generateResponse, Except.ok.injEq] at hres
    rw [← hres]
  · intro res hres
    simp only [generateEnhancedResponse, Except.ok.injEq] at hres
    rw [← hres]
  · intro hsorted
    have h := runStream_completion_mono lines (0, 0) (fun n _ => Nat.zero_le n) hsorted
    exact h.tail
  · intro c t ec pc h1 h2 h3 h4 h5 h6
    exact runStream_last_done lines (0, 0) c t ec pc h1 h2 h3 h4 h5 h6
  · exact runStream_prompt_zero lines (0, 0) rfl

theorem C5_token_accounting_witness :
    List.Sorted (· ≤ ·) (evalCounts demoLines) ∧
    List.Chain' (· ≤ ·)
      (((runStream (0, 0) demoLines).1).map (fun e => e.tokens.completion)) :=
  ⟨by decide,
    (C5_token_accounting demoLines ⟨"", 0, 0, none⟩ "m" "d" emptyMetrics).2.2.2.1
      (by decide)⟩

theorem list_getD_set_self {α : Type} :
    ∀ (l : List α) (i : ℕ) (a d : α), i < l.length → (l.set i a).getD i d = a := by
  intro l
  induction l with
  | nil => intro i a d h; simp at h
  | cons x xs ih =>
      intro i a d h
      cases i with
      | zero => rfl
      | succ n =>
          simp only [List.set_cons_succ, List.getD_cons_succ]
          exact ih n a d (by simpa using h)

theorem list_getD_set_ne {α : Type} :
    ∀ (l : List α) (i j : ℕ) (a d : α), i ≠ j → (l.set j a).getD i d = l.getD i d := by
  intro l
  induction l with
  | nil => intro i j a d _; simp [List.getD]
  | cons x xs ih =>
      intro i j a d hne
      cases j with
      | zero =>
          cases i with
          | zero => exact absurd rfl hne
          | succ n => rfl
      | succ m =>
          cases i with
          | zero => rfl
          | succ n =>
              simp only [List.set_cons_succ, List.getD_cons_succ]
              exact ih n m a d (fun h => hne (by rw [h]))

theorem list_getD_append_left {α : Type} :
    ∀ (l l2 : List α) (i : ℕ) (d : α), i < l.length → (l ++ l2).getD i d = l.getD i d := by
  intro l
  induction l with
  | nil => intro l2 i d h; simp at h
  | cons x xs ih =>
      intro l2 i d h
      cases i with
      | zero => rfl
      | succ n =>
          simp only [List.cons_append, List.getD_cons_succ]
          exact ih l2 n d (by simpa using h)

theorem list_getD_concat_self {α : Type} :
    ∀ (l : List α) (a d : α), (l ++ [a]).getD l.length d = a := by
  intro l
  induction l with
  | nil => intro a d; rfl
  | cons x xs ih =>
      intro a d
      simp only [List.cons_append, List.length_cons, List.getD_cons_succ]
      exact ih a d

/-- One enhanced exchange advances the stored context by
`contextAfterUpdate`, and preserves well-formedness of the session's
heap index. -/
theorem sendEnhanced_contextOf (st : ControllerState) (sid p r : String)
    (hwf : ∀ i, st.sessions sid = some i → i < st.heap.length) :
    contextOf (sendEnhancedMessage st sid p r).2 sid =
      contextAfterUpdate (contextOf st sid) p r ∧
    (∀ i, (sendEnhancedMessage st sid p r).2.sessions sid = some i →
      i < (sendEnhancedMessage st sid p r).2.heap.length) := by
  rcases hs : st.sessions sid with _ | i
  · -- first exchange of the session: two fresh arrays are allocated
    simp only [sendEnhancedMessage, updateContext, getConversationContext,
      contextOf, hs, eq_self_iff_true, if_true]
    constructor
    · rw [list_getD_concat_self]
      have hlt : (st.heap ++ [[]]).length < (st.heap ++ [[]] ++ [[]]).length := by
        simp
      rw [list_getD_set_self _ _ _ _ hlt]
    · intro i hi
      simp only [Option.some.injEq] at hi
      subst hi
      simp
  · have hlt : i < st.heap.length := hwf i hs
    simp only [sendEnhancedMessage, updateContext, getConversationContext,
      contextOf, hs, eq_self_iff_true, if_true]
    constructor
    · have hlt2 : i < (st.heap.set i
          (contextAfterUpdate (st.heap.getD i []) p r)).length + 0 := by
        simpa using hlt
      rw [list_getD_set_self _ _ _ _ hlt]
    · intro j hj
      simp only [Option.some.injEq] at hj
      subst hj
      simpa using hlt

theorem runExchanges_contextOf (sid : String) :
    ∀ (exs : List (String × String)) (st : ControllerState),
      (∀ i, st.sessions sid = some i → i < st.heap.length) →
      contextOf (runExchanges sid st exs) sid =
        exs.foldl (fun ctx e => contextAfterUpdate ctx e.1 e.2) (contextOf st sid) := by
  intro exs
  induction exs with
  | nil => intro st _; rfl
  | cons e rest ih =>
      intro st hwf
      obtain ⟨hctx, hwf2⟩ := sendEnhanced_contextOf st sid e.1 e.2 hwf
      simp only [runExchanges, List.foldl_cons]
      rw [ih _ hwf2, hctx]

theorem pairFlat_length :
    ∀ (l : List (String × String)), (l.flatMap pairFmt).length = 2 * l.length := by
  intro l
  induction l with
  | nil => rfl
  | cons e rest ih =>
      simp only [List.flatMap_cons, List.length_append, ih, pairFmt,
        List.length_cons, List.length_nil, List.length_cons]
      omega

theorem expectedContext_length (exs : List (String × String)) :
    (expectedContext exs).length = min (2 * exs.length) 6 := by
  unfold expectedContext
  rw [pairFlat_length, List.length_drop]
  omega

theorem expectedContext_snoc (exs : List (String × String)) (e : String × String) :
    expectedContext (exs ++ [e]) = contextAfterUpdate (expectedContext exs) e.1 e.2 := by
  have hpush : contextAfterUpdate (expectedContext exs) e.1 e.2 =
      if (expectedContext exs ++ pairFmt e).length > 6
      then (expectedContext exs ++ pairFmt e).drop 2
      else expectedContext exs ++ pairFmt e := rfl
  by_cases h : exs.length ≤ 2
  · have h3 : exs.length - 3 = 0 := by omega
    have h3' : (exs ++ [e]).length - 3 = 0 := by
      rw [List.length_append, List.length_singleton]
      omega
    have hlen : ¬ ((expectedContext exs ++ pairFmt e).length > 6) := by
      rw [List.length_append, expectedContext_length,
        show (pairFmt e).length = 2 from rfl]
      omega
    rw [hpush, if_neg hlen]
    unfold expectedContext
    rw [h3, h3', List.drop_zero, List.drop_zero, List.flatMap_append]
    simp [pairFmt]
  · have hgt : 2 < exs.length := by omega
    have hlt : exs.length - 3 < exs.length := by omega
    have hcons : exs.drop (exs.length - 3) =
        exs[exs.length - 3] :: exs.drop (exs.length - 2) := by
      rw [List.drop_eq_getElem_cons hlt,
        show exs.length - 3 + 1 = exs.length - 2 from by omega]
    have hlen : (expectedContext exs ++ pairFmt e).length > 6 := by
      rw [List.length_append, expectedContext_length,
        show (pairFmt e).length = 2 from rfl]
      omega
    rw [hpush, if_pos hlen]
    unfold expectedContext
    rw [hcons]
    have hsnoc : (exs ++ [e]).length - 3 = exs.length - 2 := by
      rw [List.length_append, List.length_singleton]
      omega
    rw [hsnoc, List.drop_append_of_le_length (by omega)]
    simp only [List.flatMap_append, List.flatMap_cons, List.flatMap_nil,
      List.append_nil]
    rfl

theorem foldl_contextAfterUpdate :
    ∀ (exs : List (String × String)),
      exs.foldl (fun ctx e => contextAfterUpdate ctx e.1 e.2) [] = expectedContext exs := by
  intro exs
  induction exs using List.reverseRecOn with
  | nil => rfl
  | append_singleton exs e ih =>
      rw [List.foldl_append, List.foldl_cons, List.foldl_nil, ih, expectedContext_snoc]

/-- C1: starting from an empty store, after the given successful
context-using exchanges the stored context is exactly the flattened
suffix of the most recent (at most three) user/assistant pairs, and its
length is `min(2N, 6)`: each exchange appends a user-labeled then an
assistant-labeled entry, and eviction removes the oldest full pair. -/
theorem C1_context_invariant :
    ∀ (sessionId : String) (exs : List (String × String)),
      contextOf (runExchanges sessionId emptyControllerState exs) sessionId =
        expectedContext exs ∧
      (contextOf (runExchanges sessionId emptyControllerState exs) sessionId).length =
        min (2 * exs.length) 6 := by
  intro sid exs
  have hwf : ∀ i, emptyControllerState.sessions sid = some i →
      i < emptyControllerState.heap.length := by
    intro i h
    simp [emptyControllerState] at h
  have h1 := runExchanges_contextOf sid exs emptyControllerState hwf
  have hinit : contextOf emptyControllerState sid = [] := rfl
  rw [hinit] at h1
  rw [h1, foldl_contextAfterUpdate]
  exact ⟨rfl, expectedContext_length exs⟩

/-- C10: the `contextLength` field returned by the enhanced-message
handler is `0` on a session's first context-using exchange (the length
of the freshly allocated array that the update never touches), and on
every later exchange of the same session it is the length of the stored
array *after* the new pair was appended and any eviction applied,
because the handler returns the length of the very array object that
`updateContext` mutates in place. -/
theorem C10_contextLength_aliasing :
    ∀ (st : ControllerState) (sessionId prompt respContent : String),
      (∀ i, st.sessions sessionId = some i → i < st.heap.length) →
      ((st.sessions sessionId = none →
        (sendEnhancedMessage st sessionId prompt respContent).1 = 0) ∧
      (∀ i, st.sessions sessionId = some i →
        (sendEnhancedMessage st sessionId prompt respContent).1 =
          (contextAfterUpdate (st.heap.getD i []) prompt respContent).length ∧
        (sendEnhancedMessage st sessionId prompt respContent).1 =
          (contextOf (sendEnhancedMessage st sessionId prompt respContent).2
            sessionId).length)) := by
  intro st sid prompt respContent hwf
  constructor
  · intro hs
    simp only [sendEnhancedMessage, updateContext, getConversationContext, hs,
      eq_self_iff_true, if_true]
    have hne : st.heap.length ≠ (st.heap ++ [[]]).length := by simp
    rw [list_getD_set_ne _ _ _ _ _ hne]
    have hlt : st.heap.length < (st.heap ++ [[]]).length := by simp
    rw [list_getD_append_left _ _ _ _ hlt, list_getD_concat_self]
    rfl
  · intro i hs
    have hlt := hwf i hs
    constructor
    · simp only [sendEnhancedMessage, updateContext, getConversationContext, hs]
      rw [list_getD_set_self _ _ _ _ hlt]
    · simp only [sendEnhancedMessage, updateContext, getConversationContext,
        contextOf, hs, eq_self_iff_true, if_true]

theorem C10_contextLength_aliasing_witness :
    (sendEnhancedMessage emptyControllerState "default" "hola" "resp").1 = 0 :=
  (C10_contextLength_aliasing emptyControllerState "default" "hola" "resp"
    (fun i h => by simp [emptyControllerState] at h)).1 rfl

/-- C2 (failing evaluation): when the backend call rejects
(transport-level failure), the SSE outcome is an abrupt error
termination carrying no data frame at all — in particular no terminal
frame with an `error` field and `done=true` is ever delivered, because
the controller's catch cannot intercept errors thrown from the lazy
async generator. -/
theorem C2_failing_eval :
    (streamResponse none (.failBefore "connect ECONNREFUSED")
        "gemma3:4b" "2026-10-12" emptyMetrics).1 =
      .errored [] "connect ECONNREFUSED" ∧
    ∀ frame ∈ (streamResponse none (.failBefore "connect ECONNREFUSED")
        "gemma3:4b" "2026-10-12" emptyMetrics).1.frames, False := by
  constructor
  · rfl
  · intro frame hf
    simp [streamResponse, generateResponseStream, SseOutcome.frames] at hf

/-! ### C6: idempotence of the post-processor -/

theorem punct_not_ws {c : Char} (h : isPunct c = true) : isWs c = false := by
  unfold isPunct at h
  simp only [Bool.or_eq_true, decide_eq_true_eq] at h
  rcases h with (h | h) | h <;> subst h <;> decide

theorem ws_not_punct {c : Char} (h : isWs c = true) : isPunct c = false := by
  unfold isWs at h
  simp only [Bool.or_eq_true, decide_eq_true_eq] at h
  rcases h with ((((h | h) | h) | h) | h) | h <;> subst h <;> decide

theorem step_dead (c : Char) : step 5 c = 5 := rfl

theorem foldl_step_dead : ∀ l : List Char, l.foldl step 5 = 5 := by
  intro l
  induction l with
  | nil => rfl
  | cons c r ih => simpa [List.foldl_cons, step_dead] using ih

theorem stepR_dead (c : Char) : stepR 5 c = 5 := rfl

theorem foldl_stepR_dead : ∀ l : List Char, l.foldl stepR 5 = 5 := by
  intro l
  induction l with
  | nil => rfl
  | cons c r ih => simpa [List.foldl_cons, stepR_dead] using ih

set_option maxHeartbeats 1000000 in
theorem step_ne_eight (st : ℕ) (c : Char) : step st c ≠ 8 := by
  unfold step
  split_ifs <;> omega

theorem step_punct {st : ℕ} {c : Char} (hp : isPunct c = true)
    (h5 : st ≠ 5) (h6 : st ≠ 6) : step st c = 6 := by
  unfold step
  rw [if_neg h5, if_neg h6, if_pos hp]

theorem step_six {c : Char} : step 6 c = if c = ' ' then 7 else 5 := rfl

theorem step_nonws_nonpunct {st : ℕ} {c : Char} (hw : isWs c = false)
    (hp : isPunct c = false) (h5 : st ≠ 5) (h6 : st ≠ 6) : step st c = 0 := by
  unfold step
  rw [if_neg h5, if_neg h6, if_neg (by simp [hp])]
  simp [hw]

theorem stepR_nonws {st : ℕ} {c : Char} (hw : isWs c = false) (h5 : st ≠ 5) :
    stepR st c = 0 := by
  unfold stepR
  rw [if_neg h5, if_neg (by simp [hw])]

theorem step_ws_eq_stepR {st : ℕ} {c : Char} (hw : isWs c = true)
    (hst : st = 0 ∨ st = 1 ∨ st = 2 ∨ st = 3 ∨ st = 4) :
    step st c = stepR st c := by
  have hp : isPunct c = false := ws_not_punct hw
  rcases hst with h | h | h | h | h <;> subst h <;>
    unfold step stepR <;>
    simp [hp, hw]

theorem stepR_ws_run (st : ℕ) {c : Char} (hw : isWs c = true)
    (hst : st = 0 ∨ st = 1 ∨ st = 2 ∨ st = 3 ∨ st = 4) :
    stepR st c = 1 ∨ stepR st c = 2 ∨ stepR st c = 3 ∨ stepR st c = 4 ∨
      stepR st c = 5 := by
  rcases hst with h | h | h | h | h <;> subst h <;>
    rcases eq_or_ne c '\n' with hc | hc <;>
    first
    | (subst hc; decide)
    | simp [stepR, hw, hc]

theorem isAcc_not_run {f : ℕ} (h : isAcc f) :
    f ≠ 1 ∧ f ≠ 2 ∧ f ≠ 3 ∧ f ≠ 4 ∧ f ≠ 5 ∧ f ≠ 6 := by
  rcases h with h | h | h <;> subst h <;> omega

theorem collapseRun_nil : collapseRun [] = [] := by
  simp [collapseRun]

theorem collapseRun_of_count_le_one {w : List Char} (h : w.count '\n' ≤ 1) :
    collapseRun w = w := by
  unfold collapseRun
  rw [if_neg]
  omega

theorem list_takeWhile_all_append {p : Char → Bool} {b : List Char}
    (hb : ∀ x ∈ b, p x = true) (l : List Char) :
    (b ++ l).takeWhile p = b ++ l.takeWhile p := by
  induction b with
  | nil => simp
  | cons x bs ih =>
      simp only [List.cons_append, List.takeWhile_cons,
        hb x (List.mem_cons_self _ _), if_true]
      rw [ih (fun y hy => hb y (List.mem_cons_of_mem _ hy))]

theorem takeWhile_ne_cons_nl (l : List Char) :
    (('\n' :: l).takeWhile (fun c => c ≠ '\n')) = [] := by
  simp [List.takeWhile_cons]

theorem collapseRun_pair {a b : List Char} (ha : '\n' ∉ a) (hb : '\n' ∉ b) :
    collapseRun (b ++ '\n' :: '\n' :: a) = b ++ '\n' :: '\n' :: a := by
  have hca : a.count '\n' = 0 := List.count_eq_zero.mpr ha
  have hcb : b.count '\n' = 0 := List.count_eq_zero.mpr hb
  have hcount : (b ++ '\n' :: '\n' :: a).count '\n' = 2 := by
    simp [List.count_append, List.count_cons, hca, hcb]
  unfold collapseRun
  rw [if_pos (by omega)]
  have hb' : ∀ x ∈ b, (fun c => decide (c ≠ '\n')) x = true := by
    intro x hx
    simp only [decide_eq_true_eq]
    intro hxe
    exact hb (hxe ▸ hx)
  have ha' : ∀ x ∈ a.reverse, (fun c => decide (c ≠ '\n')) x = true := by
    intro x hx
    simp only [decide_eq_true_eq]
    intro hxe
    exact ha (hxe ▸ (List.mem_reverse.mp hx))
  have h1 : (b ++ '\n' :: '\n' :: a).takeWhile (fun c => decide (c ≠ '\n')) = b := by
    rw [list_takeWhile_all_append hb']
    simp [List.takeWhile_cons]
  have hrev : (b ++ '\n' :: '\n' :: a).reverse = a.reverse ++ '\n' :: '\n' :: b.reverse := by
    simp
  have h2 : ((b ++ '\n' :: '\n' :: a).reverse.takeWhile
      (fun c => decide (c ≠ '\n'))).reverse = a := by
    rw [hrev, list_takeWhile_all_append ha']
    simp [List.takeWhile_cons]
  rw [h1, h2]

theorem InvR_collapseRun {pend : List Char} {st : ℕ} (h : InvR pend st) :
    collapseRun pend.reverse = pend.reverse := by
  obtain ⟨hws, hcase⟩ := h
  rcases hcase with ⟨_, hnl⟩ | ⟨_, b, hpend, hb⟩ | ⟨_, a, b, hpend, ha, hna, hnb⟩ |
    ⟨_, a, b, hpend, hna, hnb⟩
  · refine collapseRun_of_count_le_one ?_
    rw [List.count_reverse, List.count_eq_zero.mpr hnl]
    omega
  · subst hpend
    refine collapseRun_of_count_le_one ?_
    rw [List.count_reverse]
    simp [List.count_cons, List.count_eq_zero.mpr hb]
  · subst hpend
    refine collapseRun_of_count_le_one ?_
    rw [List.count_reverse]
    simp [List.count_append, List.count_cons,
      List.count_eq_zero.mpr hna, List.count_eq_zero.mpr hnb]
  · subst hpend
    have : (a ++ '\n' :: '\n' :: b).reverse = b.reverse ++ '\n' :: '\n' :: a.reverse := by
      simp
    rw [this, collapseRun_pair (by simpa using hna) (by simpa using hnb)]

theorem InvR_start {c : Char} (hw : isWs c = true) : InvR [c] (stepR 0 c) := by
  refine ⟨by simp [hw], ?_⟩
  rcases eq_or_ne c '\n' with hc | hc
  · subst hc
    right; left
    refine ⟨by decide, [], rfl, by simp⟩
  · left
    constructor
    · simp [stepR, hw, hc]
    · simp [Ne.symm hc]

theorem InvR_step {pend : List Char} {st : ℕ} {c : Char} (h : InvR pend st)
    (hw : isWs c = true) (hne : stepR st c ≠ 5) :
    InvR (c :: pend) (stepR st c) := by
  obtain ⟨hws, hcase⟩ := h
  have hwsc : ∀ x ∈ c :: pend, isWs x = true := by
    intro x hx
    rcases List.mem_cons.mp hx with hx | hx
    · exact hx ▸ hw
    · exact hws x hx
  refine ⟨hwsc, ?_⟩
  rcases hcase with ⟨hst, hnl⟩ | ⟨hst, b, hpend, hb⟩ | ⟨hst, a, b, hpend, ha, hna, hnb⟩ |
    ⟨hst, a, b, hpend, hna, hnb⟩
  · subst hst
    rcases eq_or_ne c '\n' with hc | hc
    · subst hc
      right; left
      refine ⟨by simp [stepR, hw], pend, rfl, hnl⟩
    · left
      refine ⟨by simp [stepR, hw, hc], by simp [Ne.symm hc, hnl]⟩
  · subst hst hpend
    rcases eq_or_ne c '\n' with hc | hc
    · subst hc
      right; right; right
      refine ⟨by simp [stepR, hw], [], b, rfl, by simp, hb⟩
    · right; right; left
      refine ⟨by simp [stepR, hw, hc], [c], b, rfl, by simp, by simp [Ne.symm hc], hb⟩
  · subst hst hpend
    rcases eq_or_ne c '\n' with hc | hc
    · subst hc
      exact absurd (by simp [stepR, hw]) hne
    · right; right; left
      refine ⟨by simp [stepR, hw, hc], c :: a, b, rfl, by simp, ?_, hnb⟩
      simp [Ne.symm hc, hna]
  · subst hst hpend
    rcases eq_or_ne c '\n' with hc | hc
    · subst hc
      exact absurd (by simp [stepR, hw]) hne
    · right; right; right
      refine ⟨by simp [stepR, hw, hc], c :: a, b, rfl, ?_, hnb⟩
      simp [Ne.symm hc, hna]

theorem cbGo_cons_ws {c : Char} (pend r : List Char) (h : isWs c = true) :
    cbGo pend (c :: r) = cbGo (c :: pend) r := by
  simp [cbGo, h]

theorem cbGo_cons_nonws {c : Char} (pend r : List Char) (h : isWs c = false) :
    cbGo pend (c :: r) = collapseRun pend.reverse ++ c :: cbGo [] r := by
  simp [cbGo, h]

theorem InvR_st {pend : List Char} {st : ℕ} (h : InvR pend st) :
    st = 1 ∨ st = 2 ∨ st = 3 ∨ st = 4 := by
  obtain ⟨_, hcase⟩ := h
  rcases hcase with ⟨h, _⟩ | ⟨h, _⟩ | ⟨h, _⟩ | ⟨h, _⟩ <;> omega

theorem step_nonws_eq {st : ℕ} {d : Char} (hw : isWs d = false)
    (h5 : st ≠ 5) (h6 : st ≠ 6) : step st d = step 0 d := by
  by_cases hp : isPunct d = true
  · rw [step_punct hp h5 h6, step_punct hp (by omega) (by omega)]
  · rw [step_nonws_nonpunct hw (by simpa using hp) h5 h6,
      step_nonws_nonpunct hw (by simpa using hp) (by omega) (by omega)]

theorem run_walk_states :
    ∀ (w : List Char) (st : ℕ), (∀ x ∈ w, isWs x = true) →
      (st = 1 ∨ st = 2 ∨ st = 3 ∨ st = 4 ∨ st = 5) →
      (w.foldl step st = 1 ∨ w.foldl step st = 2 ∨ w.foldl step st = 3 ∨
        w.foldl step st = 4 ∨ w.foldl step st = 5) := by
  intro w
  induction w with
  | nil => intro st _ hst; exact hst
  | cons c r ih =>
      intro st hws hst
      have hwc : isWs c = true := hws c (List.mem_cons_self _ _)
      have hws' : ∀ x ∈ r, isWs x = true := fun x hx => hws x (List.mem_cons_of_mem _ hx)
      rcases hst with h | h | h | h | h
      all_goals subst h
      all_goals simp only [List.foldl_cons]
      · rw [step_ws_eq_stepR hwc (by omega)]
        exact ih _ hws' (by simpa using stepR_ws_run 1 hwc (by omega))
      · rw [step_ws_eq_stepR hwc (by omega)]
        exact ih _ hws' (by simpa using stepR_ws_run 2 hwc (by omega))
      · rw [step_ws_eq_stepR hwc (by omega)]
        exact ih _ hws' (by simpa using stepR_ws_run 3 hwc (by omega))
      · rw [step_ws_eq_stepR hwc (by omega)]
        exact ih _ hws' (by simpa using stepR_ws_run 4 hwc (by omega))
      · rw [step_dead]
        exact ih _ hws' (by omega)

theorem not_acc_of_run {f : ℕ}
    (h : f = 1 ∨ f = 2 ∨ f = 3 ∨ f = 4 ∨ f = 5) : ¬ isAcc f := by
  intro hacc
  rcases hacc with ha | ha | ha <;> omega

theorem dropWhile_head_false {p : Char → Bool} :
    ∀ (l : List Char) {d : Char} {rr : List Char},
      l.dropWhile p = d :: rr → p d = false := by
  intro l
  induction l with
  | nil => intro d rr h; simp at h
  | cons c r ih =>
      intro d rr h
      rw [List.dropWhile_cons] at h
      split_ifs at h with hc
      · exact ih h
      · rw [List.cons.injEq] at h
        rw [← h.1]
        simpa using hc

/-- Inside an accepted walk, `cbGo` flushes the pending run unchanged:
the output is the pending run, the rest of the current whitespace run,
and the collapse of what follows. -/
theorem run_aux :
    ∀ (r pend : List Char) (st : ℕ), InvR pend st → isAcc (r.foldl step st) →
      cbGo pend r = pend.reverse ++ r.takeWhile isWs ++
        collapseBlank (r.dropWhile isWs) := by
  intro r
  induction r with
  | nil =>
      intro pend st hinv hacc
      refine absurd hacc (not_acc_of_run ?_)
      simp only [List.foldl_nil]
      rcases InvR_st hinv with h | h | h | h <;> omega
  | cons c r' ih =>
      intro pend st hinv hacc
      have hrun := InvR_st hinv
      by_cases hw : isWs c = true
      · have hset : st = 0 ∨ st = 1 ∨ st = 2 ∨ st = 3 ∨ st = 4 := by
          rcases hrun with h|h|h|h <;> omega
        have heq : step st c = stepR st c := step_ws_eq_stepR hw hset
        by_cases h5 : stepR st c = 5
        · exfalso
          refine not_acc_of_run (f := (c :: r').foldl step st) ?_ hacc
          simp only [List.foldl_cons, heq, h5]
          rw [foldl_step_dead]
          omega
        · have hinv' := InvR_step hinv hw h5
          have hacc' : isAcc (r'.foldl step (stepR st c)) := by
            simpa [List.foldl_cons, heq] using hacc
          rw [cbGo_cons_ws _ _ hw, ih (c :: pend) (stepR st c) hinv' hacc']
          simp only [List.takeWhile_cons, hw, if_true, List.dropWhile_cons,
            List.reverse_cons]
          simp [List.append_assoc]
      · have hwf : isWs c = false := by simpa using hw
        rw [cbGo_cons_nonws _ _ hwf, InvR_collapseRun hinv]
        simp only [List.takeWhile_cons, hwf, List.dropWhile_cons]
        simp only [Bool.false_eq_true, if_false]
        have hcb : collapseBlank (c :: r') = c :: cbGo [] r' := by
          rw [collapseBlank, cbGo_cons_nonws _ _ hwf]
          simp [collapseRun_nil]
        rw [hcb]
        simp

/-- The blank-line collapser leaves every accepted (normal-form) string
unchanged. -/
theorem cb_fix_aux :
    ∀ (n : ℕ) (y : List Char) (st : ℕ), y.length ≤ n →
      (st = 0 ∨ st = 7 ∨ st = 8) → isAcc (y.foldl step st) →
      collapseBlank y = y := by
  intro n
  induction n with
  | zero =>
      intro y st hlen _ _
      have hy : y = [] := List.length_eq_zero.mp (Nat.le_zero.mp hlen)
      subst hy
      decide
  | succ n ih =>
      intro y st hlen hst hacc
      cases y with
      | nil => decide
      | cons c r =>
          have h5 : st ≠ 5 := by rcases hst with h | h | h <;> omega
          have h6 : st ≠ 6 := by rcases hst with h | h | h <;> omega
          by_cases hp : isPunct c = true
          · have hw : isWs c = false := punct_not_ws hp
            have hstep : step st c = 6 := step_punct hp h5 h6
            have hacc6 : isAcc (r.foldl step 6) := by
              simpa only [List.foldl_cons, hstep] using hacc
            cases r with
            | nil =>
                exfalso
                simp only [List.foldl_nil] at hacc6
                rcases hacc6 with h | h | h <;> omega
            | cons d r' =>
                by_cases hd : d = ' '
                · subst hd
                  have hacc7 : isAcc (r'.foldl step 7) := by
                    have hs : step 6 ' ' = 7 := by decide
                    simpa only [List.foldl_cons, hs] using hacc6
                  cases r' with
                  | nil =>
                      show collapseBlank [c, ' '] = [c, ' ']
                      rw [collapseBlank, cbGo_cons_nonws _ _ hw]
                      have h1 : cbGo [] [' '] = [' '] := by decide
                      rw [h1]
                      simp [collapseRun_nil]
                  | cons e r'' =>
                      by_cases hwe : isWs e = true
                      · exfalso
                        have hpe : isPunct e = false := ws_not_punct hwe
                        have hse : step 7 e = 5 := by
                          unfold step
                          rw [if_neg (by omega), if_neg (by omega),
                            if_neg (by simp [hpe]), if_pos rfl, if_pos hwe]
                        rw [List.foldl_cons, hse, foldl_step_dead] at hacc7
                        rcases hacc7 with h | h | h <;> omega
                      · have hwe' : isWs e = false := by simpa using hwe
                        have hrec : collapseBlank (e :: r'') = e :: r'' := by
                          refine ih (e :: r'') 7 ?_ (by omega) hacc7
                          simp only [List.length_cons] at hlen ⊢
                          omega
                        have h3 : collapseBlank (e :: r'') = e :: cbGo [] r'' := by
                          rw [collapseBlank, cbGo_cons_nonws _ _ hwe']
                          simp [collapseRun_nil]
                        have h4 : cbGo [] r'' = r'' := by
                          rw [h3] at hrec
                          simpa using hrec
                        rw [collapseBlank, cbGo_cons_nonws _ _ hw]
                        have h2 : cbGo [] (' ' :: e :: r'') = ' ' :: e :: cbGo [] r'' := by
                          rw [cbGo_cons_ws _ _ (by decide), cbGo_cons_nonws _ _ hwe']
                          have hsp : collapseRun (([' '] : List Char).reverse) = [' '] := by
                            decide
                          rw [hsp]
                          rfl
                        rw [h2, h4]
                        simp [collapseRun_nil]
                · exfalso
                  have hsd : step 6 d = 5 := by
                    rw [step_six, if_neg hd]
                  rw [List.foldl_cons, hsd, foldl_step_dead] at hacc6
                  rcases hacc6 with h | h | h <;> omega
          · have hp' : isPunct c = false := by simpa using hp
            by_cases hw : isWs c = true
            · rcases hst with h0 | h7 | h8
              · subst h0
                have hne5 : stepR 0 c ≠ 5 := by
                  rcases eq_or_ne c '\n' with hc | hc
                  · subst hc
                    decide
                  · simp [stepR, hw, hc]
                have heq : step 0 c = stepR 0 c := step_ws_eq_stepR hw (by omega)
                have haccr : isAcc (r.foldl step (stepR 0 c)) := by
                  simpa only [List.foldl_cons, heq] using hacc
                have hinvs : InvR [c] (stepR 0 c) := InvR_start hw
                have hmain := run_aux r [c] (stepR 0 c) hinvs haccr
                have htk : ∀ x ∈ r.takeWhile isWs, isWs x = true := by
                  intro x hx
                  exact List.mem_takeWhile_imp hx
                have hrs : stepR 0 c = 1 ∨ stepR 0 c = 2 ∨ stepR 0 c = 3 ∨
                    stepR 0 c = 4 ∨ stepR 0 c = 5 := by
                  simpa using stepR_ws_run 0 hw (by omega)
                cases hdrop : r.dropWhile isWs with
                | nil =>
                    exfalso
                    have hallws : ∀ x ∈ r, isWs x = true := by
                      intro x hx
                      exact List.dropWhile_eq_nil_iff.mp hdrop x hx
                    exact not_acc_of_run (run_walk_states r (stepR 0 c) hallws hrs) haccr
                | cons d rr =>
                    have hwd : isWs d = false := dropWhile_head_false r hdrop
                    have hsplit : r.takeWhile isWs ++ r.dropWhile isWs = r :=
                      List.takeWhile_append_dropWhile isWs r
                    have hkrun := run_walk_states (r.takeWhile isWs) (stepR 0 c) htk hrs
                    have hfold : r.foldl step (stepR 0 c) =
                        (r.dropWhile isWs).foldl step
                          ((r.takeWhile isWs).foldl step (stepR 0 c)) := by
                      conv_lhs => rw [← hsplit]
                      rw [List.foldl_append]
                    rcases hkrun with hk | hk | hk | hk | hk
                    rotate_right
                    · exfalso
                      rw [hfold, hk, hdrop, List.foldl_cons, step_dead,
                        foldl_step_dead] at haccr
                      rcases haccr with h | h | h <;> omega
                    all_goals
                      have hacc0 : isAcc ((d :: rr).foldl step 0) := by
                        rw [hfold, hdrop, hk] at haccr
                        rw [List.foldl_cons] at haccr ⊢
                        rwa [step_nonws_eq hwd (by omega) (by omega)] at haccr
                    all_goals
                      have hrec : collapseBlank (d :: rr) = d :: rr := by
                        refine ih (d :: rr) 0 ?_ (by omega) hacc0
                        have hsub : (r.dropWhile isWs).length ≤ r.length :=
                          (List.dropWhile_sublist _).length_le
                        rw [hdrop] at hsub
                        simp only [List.length_cons] at hlen hsub ⊢
                        omega
                    all_goals
                      rw [collapseBlank, cbGo_cons_ws _ _ hw, hmain, hdrop, hrec]
                    all_goals
                      show [c] ++ r.takeWhile isWs ++ (d :: rr) = c :: r
                    all_goals
                      rw [List.append_assoc]
                    all_goals
                      rw [← hdrop, hsplit]
                    all_goals rfl
              · exfalso
                subst h7
                have hs7 : step 7 c = 5 := by
                  unfold step
                  rw [if_neg (by omega), if_neg (by omega),
                    if_neg (by simp [hp']), if_pos rfl, if_pos hw]
                rw [List.foldl_cons, hs7, foldl_step_dead] at hacc
                rcases hacc with h | h | h <;> omega
              · exfalso
                subst h8
                have hs8 : step 8 c = 5 := by
                  unfold step
                  rw [if_neg (by omega), if_neg (by omega),
                    if_neg (by simp [hp']), if_neg (by omega), if_pos hw,
                    if_pos rfl]
                rw [List.foldl_cons, hs8, foldl_step_dead] at hacc
                rcases hacc with h | h | h <;> omega
            · have hw' : isWs c = false := by simpa using hw
              have hstep : step st c = 0 := step_nonws_nonpunct hw' hp' h5 h6
              have hacc0 : isAcc (r.foldl step 0) := by
                simpa only [List.foldl_cons, hstep] using hacc
              have hrec : collapseBlank r = r := by
                refine ih r 0 ?_ (by omega) hacc0
                simp only [List.length_cons] at hlen
                omega
              rw [collapseBlank] at hrec
              rw [collapseBlank, cbGo_cons_nonws _ _ hw', hrec]
              simp [collapseRun_nil]

theorem cb_fix {y : List Char} (h : isNormal y) : collapseBlank y = y :=
  cb_fix_aux y.length y 8 (le_refl _) (by omega) h

set_option maxHeartbeats 1000000 in
theorem step_eq_seven {st : ℕ} {c : Char} (h : step st c = 7) :
    st = 6 ∧ c = ' ' := by
  unfold step at h
  split_ifs at h <;> simp_all

set_option maxHeartbeats 1000000 in
theorem step_eq_six {st : ℕ} {c : Char} (h : step st c = 6) :
    isPunct c = true := by
  unfold step at h
  split_ifs at h <;> simp_all

set_option maxHeartbeats 1000000 in
theorem step_eq_zero {st : ℕ} {c : Char} (h : step st c = 0) :
    isWs c = false ∧ isPunct c = false := by
  unfold step at h
  split_ifs at h <;> simp_all

theorem step_seven_ws {c : Char} (hw : isWs c = true) : step 7 c = 5 := by
  have hp : isPunct c = false := ws_not_punct hw
  unfold step
  rw [if_neg (by omega), if_neg (by omega), if_neg (by simp [hp]),
    if_pos rfl, if_pos hw]

theorem step_eight_ws {c : Char} (hw : isWs c = true) : step 8 c = 5 := by
  have hp : isPunct c = false := ws_not_punct hw
  unfold step
  rw [if_neg (by omega), if_neg (by omega), if_neg (by simp [hp]),
    if_neg (by omega), if_pos hw, if_pos rfl]

set_option maxHeartbeats 1000000 in
theorem step_ws_ne_six {st : ℕ} {c : Char} (hw : isWs c = true)
    (h5 : st ≠ 5) (h6 : st ≠ 6) : step st c ≠ 6 := by
  have hp : isPunct c = false := ws_not_punct hw
  unfold step
  rw [if_neg h5, if_neg h6, if_neg (by simp [hp])]
  split_ifs <;> omega

/-- A normal form is empty, ends in an ordinary character, or ends in a
punctuation mark followed by one space. -/
theorem end_shape :
    ∀ (y : List Char), isNormal y →
      y = [] ∨ (∃ z c, y = z ++ [c] ∧ isWs c = false ∧ isPunct c = false) ∨
      (∃ z p, y = z ++ [p, ' '] ∧ isPunct p = true) := by
  intro y
  induction y using List.reverseRecOn with
  | nil => intro _; left; rfl
  | append_singleton z c _ =>
      intro h
      unfold isNormal at h
      rw [List.foldl_append] at h
      simp only [List.foldl_cons, List.foldl_nil] at h
      rcases h with h8 | h0 | h7
      · exact absurd h8 (step_ne_eight _ _)
      · right; left
        obtain ⟨hw, hp⟩ := step_eq_zero h0
        exact ⟨z, c, rfl, hw, hp⟩
      · obtain ⟨h6, hsp⟩ := step_eq_seven h7
        subst hsp
        rcases z.eq_nil_or_concat with hz | ⟨z', p, hz⟩
        · subst hz
          simp at h6
        · subst hz
          rw [List.concat_eq_append] at h6 ⊢
          rw [List.foldl_append] at h6
          simp only [List.foldl_cons, List.foldl_nil] at h6
          have hpp := step_eq_six h6
          right; right
          exact ⟨z', p, by simp, hpp⟩

theorem head_not_ws :
    ∀ (y : List Char), isNormal y →
      y = [] ∨ ∃ c r, y = c :: r ∧ isWs c = false := by
  intro y h
  cases y with
  | nil => left; rfl
  | cons c r =>
      right
      refine ⟨c, r, rfl, ?_⟩
      by_cases hw : isWs c = true
      · exfalso
        unfold isNormal at h
        rw [List.foldl_cons, step_eight_ws hw, foldl_step_dead] at h
        rcases h with h | h | h <;> omega
      · simpa using hw

theorem stripPS_cons_of_two (x d e : Char) (r : List Char) :
    stripPS (x :: d :: e :: r) = x :: stripPS (d :: e :: r) := by
  simp [stripPS]

theorem stripPS_cons_of_not_punct {c : Char} (hp : isPunct c = false) :
    ∀ r : List Char, stripPS (c :: r) = c :: stripPS r := by
  intro r
  match r with
  | [] => rfl
  | [d] => simp [stripPS, hp]
  | d :: e :: r2 => exact stripPS_cons_of_two c d e r2

theorem stripPS_concat_ne_space :
    ∀ (z : List Char) (c : Char), c ≠ ' ' → stripPS (z ++ [c]) = z ++ [c] := by
  intro z
  induction z with
  | nil => intro c _; rfl
  | cons x z' ih =>
      intro c hc
      cases z' with
      | nil => simp [stripPS, hc]
      | cons w z'' =>
          have hcons : ∃ e r2, z'' ++ [c] = e :: r2 := by
            cases z'' with
            | nil => exact ⟨c, [], rfl⟩
            | cons a b => exact ⟨a, b ++ [c], rfl⟩
          obtain ⟨e, r2, he⟩ := hcons
          have : stripPS (x :: w :: (z'' ++ [c])) = x :: stripPS (w :: (z'' ++ [c])) := by
            rw [he]
            exact stripPS_cons_of_two x w e r2
          simp only [List.cons_append]
          rw [this]
          have := ih c hc
          simp only [List.cons_append] at this
          rw [this]

theorem stripPS_concat_pair :
    ∀ (z : List Char) (p : Char), isPunct p = true →
      stripPS (z ++ [p, ' ']) = z ++ [p] := by
  intro z
  induction z with
  | nil => intro p hp; simp [stripPS, hp]
  | cons x z' ih =>
      intro p hp
      cases z' with
      | nil =>
          simp only [List.nil_append, List.cons_append]
          rw [stripPS_cons_of_two x p ' ' []]
          have : stripPS (p :: ' ' :: []) = [p] := by simp [stripPS, hp]
          rw [this]
      | cons w z'' =>
          have hcons : ∃ e r2, z'' ++ [p, ' '] = e :: r2 := by
            cases z'' with
            | nil => exact ⟨p, [' '], rfl⟩
            | cons a b => exact ⟨a, b ++ [p, ' '], rfl⟩
          obtain ⟨e, r2, he⟩ := hcons
          simp only [List.cons_append]
          rw [he, stripPS_cons_of_two x w e r2, ← he]
          have hih := ih p hp
          simp only [List.cons_append] at hih
          rw [hih]

theorem jsTrim_of_normal {y : List Char} (h : isNormal y) :
    jsTrim y = stripPS y := by
  have hh := head_not_ws y h
  rcases end_shape y h with rfl | ⟨z, c, rfl, hwc, hpc⟩ | ⟨z, p, rfl, hp⟩
  · rfl
  · have h1 : (z ++ [c]).dropWhile isWs = z ++ [c] := by
      rcases hh with habs | ⟨d, r, heq, hwd⟩
      · simp at habs
      · rw [heq]
        simp [List.dropWhile_cons, hwd]
    have h2 : (z ++ [c]).reverse.dropWhile isWs = (z ++ [c]).reverse := by
      have hrev : (z ++ [c]).reverse = c :: z.reverse := by simp
      rw [hrev]
      simp [List.dropWhile_cons, hwc]
    unfold jsTrim
    rw [h1, h2, List.reverse_reverse]
    have hcs : c ≠ ' ' := by
      intro he
      subst he
      simp [isWs] at hwc
    rw [stripPS_concat_ne_space z c hcs]
  · have hwp : isWs p = false := punct_not_ws hp
    have h1 : (z ++ [p, ' ']).dropWhile isWs = z ++ [p, ' '] := by
      rcases hh with habs | ⟨d, r, heq, hwd⟩
      · simp at habs
      · rw [heq]
        simp [List.dropWhile_cons, hwd]
    have h2 : (z ++ [p, ' ']).reverse.dropWhile isWs = p :: z.reverse := by
      have hrev : (z ++ [p, ' ']).reverse = ' ' :: p :: z.reverse := by simp
      rw [hrev, List.dropWhile_cons, if_pos (by decide), List.dropWhile_cons,
        if_neg (by simp [hwp])]
    unfold jsTrim
    rw [h1, h2]
    have h3 : (p :: z.reverse).reverse = z ++ [p] := by simp
    rw [h3, stripPS_concat_pair z p hp]

theorem spGo_false_cons_punct {c : Char} (hp : isPunct c = true) (r : List Char) :
    spGo false (c :: r) = c :: ' ' :: spGo true r := by
  simp [spGo, hp]

theorem spGo_false_cons_other {c : Char} (hp : isPunct c = false) (r : List Char) :
    spGo false (c :: r) = c :: spGo false r := by
  simp [spGo, hp]

theorem spGo_true_cons_ws {c : Char} (hw : isWs c = true) (r : List Char) :
    spGo true (c :: r) = spGo true r := by
  simp [spGo, hw]

theorem spGo_true_cons_nonws {c : Char} (hw : isWs c = false) (r : List Char) :
    spGo true (c :: r) = spGo false (c :: r) := by
  simp [spGo, hw]

theorem stripPS_head (d : Char) (rr : List Char) :
    ∃ T, stripPS (d :: rr) = d :: T := by
  cases rr with
  | nil => exact ⟨[], rfl⟩
  | cons e rr' =>
      cases rr' with
      | nil =>
          refine ⟨if isPunct d && (e = ' ') then [] else [e], ?_⟩
          simp only [stripPS]
          split_ifs <;> simp_all
      | cons f rr'' => exact ⟨stripPS (e :: f :: rr''), stripPS_cons_of_two d e f rr''⟩

/-- On a normal form with the terminal punctuation space stripped, the
punctuation-space pass reproduces the normal form exactly. -/
theorem sp_reconstruct :
    ∀ (n : ℕ) (y : List Char) (st : ℕ), y.length ≤ n → st ≠ 5 → st ≠ 6 →
      isAcc (y.foldl step st) → spGo false (stripPS y) = y := by
  intro n
  induction n with
  | zero =>
      intro y st hlen _ _ _
      have hy : y = [] := List.length_eq_zero.mp (Nat.le_zero.mp hlen)
      subst hy
      rfl
  | succ n ih =>
      intro y st hlen h5 h6 hacc
      cases y with
      | nil => rfl
      | cons c r =>
          by_cases hp : isPunct c = true
          · have hstep : step st c = 6 := step_punct hp h5 h6
            have hacc6 : isAcc (r.foldl step 6) := by
              simpa only [List.foldl_cons, hstep] using hacc
            cases r with
            | nil =>
                exfalso
                simp only [List.foldl_nil] at hacc6
                rcases hacc6 with h | h | h <;> omega
            | cons d r' =>
                by_cases hd : d = ' '
                · subst hd
                  have hacc7 : isAcc (r'.foldl step 7) := by
                    have hs : step 6 ' ' = 7 := by decide
                    simpa only [List.foldl_cons, hs] using hacc6
                  cases r' with
                  | nil =>
                      have h1 : stripPS [c, ' '] = [c] := by simp [stripPS, hp]
                      rw [h1, spGo_false_cons_punct hp]
                      rfl
                  | cons e r'' =>
                      by_cases hwe : isWs e = true
                      · exfalso
                        rw [List.foldl_cons, step_seven_ws hwe,
                          foldl_step_dead] at hacc7
                        rcases hacc7 with h | h | h <;> omega
                      · have hwe' : isWs e = false := by simpa using hwe
                        have hrec : spGo false (stripPS (e :: r'')) = e :: r'' := by
                          refine ih (e :: r'') 7 ?_ (by omega) (by omega) hacc7
                          simp only [List.length_cons] at hlen ⊢
                          omega
                        have h1 : stripPS (c :: ' ' :: e :: r'') =
                            c :: stripPS (' ' :: e :: r'') :=
                          stripPS_cons_of_two c ' ' e r''
                        have h2 : stripPS (' ' :: e :: r'') =
                            ' ' :: stripPS (e :: r'') := by
                          cases r'' with
                          | nil =>
                              show stripPS [' ', e] = ' ' :: stripPS [e]
                              simp only [stripPS]
                              rw [if_neg (by simp [isPunct])]
                          | cons f r3 => exact stripPS_cons_of_two ' ' e f r3
                        obtain ⟨T, hT⟩ := stripPS_head e r''
                        rw [h1, h2, hT, spGo_false_cons_punct hp,
                          spGo_true_cons_ws (by decide),
                          spGo_true_cons_nonws hwe', ← hT, hrec]
                · exfalso
                  have hsd : step 6 d = 5 := by
                    rw [step_six, if_neg hd]
                  rw [List.foldl_cons, hsd, foldl_step_dead] at hacc6
                  rcases hacc6 with h | h | h <;> omega
          · have hp' : isPunct c = false := by simpa using hp
            have hstrip : stripPS (c :: r) = c :: stripPS r :=
              stripPS_cons_of_not_punct hp' r
            by_cases hw : isWs c = true
            · by_cases h7 : st = 7
              · exfalso
                subst h7
                rw [List.foldl_cons, step_seven_ws hw, foldl_step_dead] at hacc
                rcases hacc with h | h | h <;> omega
              · by_cases h8 : st = 8
                · exfalso
                  subst h8
                  rw [List.foldl_cons, step_eight_ws hw, foldl_step_dead] at hacc
                  rcases hacc with h | h | h <;> omega
                · by_cases hst5 : step st c = 5
                  · exfalso
                    rw [List.foldl_cons, hst5, foldl_step_dead] at hacc
                    rcases hacc with h | h | h <;> omega
                  · have hst6 : step st c ≠ 6 := step_ws_ne_six hw h5 h6
                    have hacc' : isAcc (r.foldl step (step st c)) := by
                      simpa only [List.foldl_cons] using hacc
                    have hrec : spGo false (stripPS r) = r := by
                      refine ih r (step st c) ?_ hst5 hst6 hacc'
                      simp only [List.length_cons] at hlen
                      omega
                    rw [hstrip, spGo_false_cons_other hp', hrec]
            · have hw' : isWs c = false := by simpa using hw
              have hstep : step st c = 0 := step_nonws_nonpunct hw' hp' h5 h6
              have hacc' : isAcc (r.foldl step 0) := by
                simpa only [List.foldl_cons, hstep] using hacc
              have hrec : spGo false (stripPS r) = r := by
                refine ih r 0 ?_ (by omega) (by omega) hacc'
                simp only [List.length_cons] at hlen
                omega
              rw [hstrip, spGo_false_cons_other hp', hrec]

/-- The three-replace normalization pass fixes every normal form. -/
theorem normalize_fix {y : List Char} (h : isNormal y) : normalizeResp y = y := by
  unfold normalizeResp
  rw [cb_fix h, jsTrim_of_normal h]
  exact sp_reconstruct y.length y 8 (le_refl _) (by omega) (by omega) h

theorem stepR_ws_nonnl_ne5 {st : ℕ} {c : Char} (hw : isWs c = true)
    (hc : c ≠ '\n') (h5 : st ≠ 5) : stepR st c ≠ 5 := by
  unfold stepR
  rw [if_neg h5, if_pos hw]
  simp only [hc, if_false]
  split_ifs <;> omega

theorem rg_nlfree_walk :
    ∀ (w : List Char) (st : ℕ), (∀ x ∈ w, isWs x = true) → '\n' ∉ w →
      st ≠ 5 → w.foldl stepR st ≠ 5 := by
  intro w
  induction w with
  | nil => intro st _ _ h5; simpa using h5
  | cons c r ih =>
      intro st hws hnl h5
      have hwc : isWs c = true := hws c (List.mem_cons_self _ _)
      have hc : c ≠ '\n' := fun he => hnl (he ▸ List.mem_cons_self _ _)
      rw [List.foldl_cons]
      exact ih _ (fun x hx => hws x (List.mem_cons_of_mem _ hx))
        (fun hx => hnl (List.mem_cons_of_mem _ hx))
        (stepR_ws_nonnl_ne5 hwc hc h5)

theorem rg_nlfree_01 :
    ∀ (w : List Char) (st : ℕ), (∀ x ∈ w, isWs x = true) → '\n' ∉ w →
      (st = 0 ∨ st = 1) → w.foldl stepR st = 0 ∨ w.foldl stepR st = 1 := by
  intro w
  induction w with
  | nil => intro st _ _ h; simpa using h
  | cons c r ih =>
      intro st hws hnl h
      have hwc : isWs c = true := hws c (List.mem_cons_self _ _)
      have hc : c ≠ '\n' := fun he => hnl (he ▸ List.mem_cons_self _ _)
      have hstep : stepR st c = 1 := by
        rcases h with h | h <;> subst h <;> simp [stepR, hwc, hc]
      rw [List.foldl_cons, hstep]
      exact ih 1 (fun x hx => hws x (List.mem_cons_of_mem _ hx))
        (fun hx => hnl (List.mem_cons_of_mem _ hx)) (Or.inr rfl)

theorem rg_run_le1 :
    ∀ (w : List Char) (st : ℕ), (∀ x ∈ w, isWs x = true) → w.count '\n' ≤ 1 →
      (st = 0 ∨ st = 1) → w.foldl stepR st ≠ 5 := by
  intro w
  induction w with
  | nil => intro st _ _ h; rcases h with h | h <;> subst h <;> simp
  | cons c r ih =>
      intro st hws hcount h
      have hwc : isWs c = true := hws c (List.mem_cons_self _ _)
      have hws' : ∀ x ∈ r, isWs x = true := fun x hx => hws x (List.mem_cons_of_mem _ hx)
      rcases eq_or_ne c '\n' with hc | hc
      · subst hc
        have hcr : '\n' ∉ r := by
          rw [List.count_cons_self] at hcount
          have : r.count '\n' = 0 := by omega
          exact List.count_eq_zero.mp this
        have hstep : stepR st '\n' = 2 := by
          rcases h with h | h <;> subst h <;> decide
        rw [List.foldl_cons, hstep]
        exact rg_nlfree_walk r 2 hws' hcr (by omega)
      · have hstep : stepR st c = 1 := by
          rcases h with h | h <;> subst h <;> simp [stepR, hwc, hc]
        rw [List.foldl_cons, hstep]
        refine ih 1 hws' ?_ (Or.inr rfl)
        rw [List.count_cons_of_ne (Ne.symm hc)] at hcount
        exact hcount

theorem mem_of_takeWhile {p : Char → Bool} {w : List Char} {x : Char}
    (h : x ∈ w.takeWhile p) : x ∈ w :=
  (List.takeWhile_sublist p).mem h

theorem rg_collapseRun :
    ∀ (w : List Char), (∀ x ∈ w, isWs x = true) →
      (collapseRun w).foldl stepR 0 ≠ 5 := by
  intro w hws
  by_cases hcount : 2 ≤ w.count '\n'
  · unfold collapseRun
    rw [if_pos hcount]
    have hs0ws : ∀ x ∈ w.takeWhile (fun c => decide (c ≠ '\n')), isWs x = true :=
      fun x hx => hws x (mem_of_takeWhile hx)
    have hs0nl : '\n' ∉ w.takeWhile (fun c => decide (c ≠ '\n')) := by
      intro hmem
      have := List.mem_takeWhile_imp hmem
      simp at this
    have hs1ws : ∀ x ∈ (w.reverse.takeWhile (fun c => decide (c ≠ '\n'))).reverse,
        isWs x = true := by
      intro x hx
      rw [List.mem_reverse] at hx
      exact hws x (List.mem_reverse.mp (mem_of_takeWhile hx))
    have hs1nl : '\n' ∉ (w.reverse.takeWhile (fun c => decide (c ≠ '\n'))).reverse := by
      intro hmem
      rw [List.mem_reverse] at hmem
      have := List.mem_takeWhile_imp hmem
      simp at this
    rw [List.foldl_append]
    have h01 := rg_nlfree_01 _ 0 hs0ws hs0nl (Or.inl rfl)
    have hstep2 : stepR (w.takeWhile (fun c => decide (c ≠ '\n'))|>.foldl stepR 0) '\n' = 2 := by
      rcases h01 with h | h <;> rw [h] <;> decide
    rw [List.foldl_cons, hstep2, List.foldl_cons,
      show stepR 2 '\n' = 4 from by decide]
    exact rg_nlfree_walk _ 4 hs1ws hs1nl (by omega)
  · rw [collapseRun_of_count_le_one (by omega)]
    exact rg_run_le1 w 0 hws (by omega) (Or.inl rfl)

theorem rg_cbGo :
    ∀ (s pend : List Char), (∀ x ∈ pend, isWs x = true) →
      (cbGo pend s).foldl stepR 0 ≠ 5 := by
  intro s
  induction s with
  | nil =>
      intro pend hws
      exact rg_collapseRun pend.reverse (fun x hx => hws x (List.mem_reverse.mp hx))
  | cons c r ih =>
      intro pend hws
      by_cases hw : isWs c = true
      · rw [cbGo_cons_ws _ _ hw]
        refine ih (c :: pend) ?_
        intro x hx
        rcases List.mem_cons.mp hx with hx | hx
        · exact hx ▸ hw
        · exact hws x hx
      · have hw' : isWs c = false := by simpa using hw
        rw [cbGo_cons_nonws _ _ hw', List.foldl_append]
        have hk := rg_collapseRun pend.reverse
          (fun x hx => hws x (List.mem_reverse.mp hx))
        rw [List.foldl_cons, stepR_nonws hw' hk]
        exact ih [] (by simp)

theorem RunsGood_collapseBlank (s : List Char) : RunsGood (collapseBlank s) :=
  rg_cbGo s [] (by simp)

theorem rg_prefix {a b : List Char} (h : (a ++ b).foldl stepR 0 ≠ 5) :
    a.foldl stepR 0 ≠ 5 := by
  intro hcontra
  rw [List.foldl_append, hcontra, foldl_stepR_dead] at h
  exact h rfl

theorem rg_dropWhile {y : List Char} (h : RunsGood y) :
    RunsGood (y.dropWhile isWs) := by
  unfold RunsGood at h ⊢
  have hsplit : y.takeWhile isWs ++ y.dropWhile isWs = y :=
    List.takeWhile_append_dropWhile isWs y
  cases hdrop : y.dropWhile isWs with
  | nil => simp
  | cons d rr =>
      have hwd : isWs d = false := dropWhile_head_false y hdrop
      have hk : (y.takeWhile isWs).foldl stepR 0 ≠ 5 := by
        refine rg_prefix (a := y.takeWhile isWs) (b := y.dropWhile isWs) ?_
        rw [hsplit]
        exact h
      have hfold : y.foldl stepR 0 =
          (y.dropWhile isWs).foldl stepR ((y.takeWhile isWs).foldl stepR 0) := by
        conv_lhs => rw [← hsplit]
        rw [List.foldl_append]
      rw [hfold, hdrop, List.foldl_cons, stepR_nonws hwd hk] at h
      rw [List.foldl_cons, stepR_nonws hwd (by omega)]
      exact h

theorem rg_trim {y : List Char} (h : RunsGood y) : RunsGood (jsTrim y) := by
  have h1 : RunsGood (y.dropWhile isWs) := rg_dropWhile h
  unfold jsTrim
  set y1 := y.dropWhile isWs with hy1
  have hsplit : y1 = (y1.reverse.dropWhile isWs).reverse ++
      (y1.reverse.takeWhile isWs).reverse := by
    conv_lhs => rw [← List.reverse_reverse y1,
      ← List.takeWhile_append_dropWhile (p := isWs) (l := y1.reverse)]
    rw [List.reverse_append]
  refine rg_prefix (b := (y1.reverse.takeWhile isWs).reverse) ?_
  rw [← hsplit]
  exact h1

theorem trim_head (y : List Char) :
    jsTrim y = [] ∨ ∃ c r, jsTrim y = c :: r ∧ isWs c = false := by
  set y1 := y.dropWhile isWs with hy1
  have hsplit : y1 = jsTrim y ++ (y1.reverse.takeWhile isWs).reverse := by
    unfold jsTrim
    rw [← hy1]
    conv_lhs => rw [← List.reverse_reverse y1,
      ← List.takeWhile_append_dropWhile (p := isWs) (l := y1.reverse)]
    rw [List.reverse_append]
  cases hjt : jsTrim y with
  | nil => left; rfl
  | cons p P' =>
      right
      refine ⟨p, P', rfl, ?_⟩
      rw [hjt, List.cons_append] at hsplit
      cases hy1c : y1 with
      | nil =>
          rw [hy1c] at hsplit
          simp at hsplit
      | cons e y1' =>
          have hdw : y.dropWhile isWs = e :: y1' := by rw [← hy1, hy1c]
          have hwe : isWs e = false := dropWhile_head_false y hdw
          rw [hy1c] at hsplit
          injection hsplit with h1 _
          exact h1 ▸ hwe

theorem trim_last (y : List Char) :
    jsTrim y = [] ∨ ∃ z c, jsTrim y = z ++ [c] ∧ isWs c = false := by
  unfold jsTrim
  cases hrev : (y.dropWhile isWs).reverse.dropWhile isWs with
  | nil => left; simp [hrev]
  | cons d rr =>
      right
      have hwd : isWs d = false := dropWhile_head_false _ hrev
      exact ⟨rr.reverse, d, by simp [hrev], hwd⟩

theorem spGo_true_eq : ∀ t : List Char, spGo true t = spGo false (t.dropWhile isWs)
  | [] => rfl
  | c :: r => by
      by_cases hw : isWs c = true
      · rw [spGo_true_cons_ws hw, spGo_true_eq r,
          List.dropWhile_cons_of_pos (by simp [hw])]
      · have hw' : isWs c = false := by simpa using hw
        rw [spGo_true_cons_nonws hw', List.dropWhile_cons_of_neg (by simp [hw'])]

theorem last_nonws_tail {c : Char} {r : List Char}
    (h : ∃ z x, c :: r = z ++ [x] ∧ isWs x = false) (hne : r ≠ []) :
    ∃ z x, r = z ++ [x] ∧ isWs x = false := by
  obtain ⟨z, x, heq, hx⟩ := h
  cases z with
  | nil =>
      simp only [List.nil_append, List.cons.injEq] at heq
      exact absurd heq.2 hne
  | cons a z' =>
      rw [List.cons_append] at heq
      injection heq with _ h2
      exact ⟨z', x, h2, hx⟩

theorem last_shape_suffix {a b : List Char} (hne : b ≠ [])
    (h : ∃ z x, a ++ b = z ++ [x] ∧ isWs x = false) :
    ∃ z x, b = z ++ [x] ∧ isWs x = false := by
  obtain ⟨z, x, heq, hx⟩ := h
  have h1 : (a ++ b).getLast? = some x := by
    rw [heq]
    exact List.getLast?_concat _
  have h2 : (a ++ b).getLast? = b.getLast? := List.getLast?_append_of_ne_nil _ hne
  have h3 : b.getLast? = some x := by rw [← h2, h1]
  rcases b.eq_nil_or_concat with hb | ⟨z', x', hb⟩
  · exact absurd hb hne
  · rw [List.concat_eq_append] at hb
    subst hb
    rw [List.getLast?_concat] at h3
    injection h3 with h4
    exact ⟨z', x, by rw [h4], hx⟩

/-- Acceptance of the punctuation-space pass's output, tracking both the
input run-automaton state and the output normal-form automaton state. -/
theorem sp_aux :
    ∀ (n : ℕ) (y : List Char) (rst ost : ℕ),
      y.length ≤ n →
      ((rst = 0 ∧ ost = 0) ∨
        (rst = 0 ∧ (ost = 7 ∨ ost = 8) ∧
          (y = [] ∨ ∃ c r, y = c :: r ∧ isWs c = false)) ∨
        (rst = ost ∧ (rst = 1 ∨ rst = 2 ∨ rst = 3 ∨ rst = 4) ∧ y ≠ [])) →
      y.foldl stepR rst ≠ 5 →
      (y = [] ∨ ∃ z x, y = z ++ [x] ∧ isWs x = false) →
      isAcc ((spGo false y).foldl step ost) := by
  intro n
  induction n with
  | zero =>
      intro y rst ost hlen hpair _ _
      have hy : y = [] := List.length_eq_zero.mp (Nat.le_zero.mp hlen)
      subst hy
      show isAcc ((spGo false []).foldl step ost)
      rcases hpair with ⟨_, h2⟩ | ⟨_, h2, _⟩ | ⟨_, _, h3⟩
      · subst h2
        exact Or.inr (Or.inl rfl)
      · rcases h2 with h | h
        · subst h
          exact Or.inr (Or.inr rfl)
        · subst h
          exact Or.inl rfl
      · exact absurd rfl h3
  | succ n ih =>
      intro y rst ost hlen hpair halive hlast
      have hostv : ost = 0 ∨ ost = 7 ∨ ost = 8 ∨ ost = 1 ∨ ost = 2 ∨ ost = 3 ∨
          ost = 4 := by
        rcases hpair with ⟨h1, h2⟩ | ⟨h1, h2, h3⟩ | ⟨h1, h2, h3⟩
        · omega
        · rcases h2 with h | h <;> omega
        · rcases h2 with h | h | h | h <;> omega
      have hrstv : rst = 0 ∨ rst = 1 ∨ rst = 2 ∨ rst = 3 ∨ rst = 4 := by
        rcases hpair with ⟨h1, h2⟩ | ⟨h1, h2, h3⟩ | ⟨h1, h2, h3⟩
        · omega
        · omega
        · rcases h2 with h | h | h | h <;> omega
      have host5 : ost ≠ 5 := by
        rcases hostv with h | h | h | h | h | h | h <;> omega
      have host6 : ost ≠ 6 := by
        rcases hostv with h | h | h | h | h | h | h <;> omega
      have hrst5 : rst ≠ 5 := by
        rcases hrstv with h | h | h | h | h <;> omega
      cases y with
      | nil =>
          show isAcc ((spGo false []).foldl step ost)
          rcases hpair with ⟨_, h2⟩ | ⟨_, h2, _⟩ | ⟨_, _, h3⟩
          · subst h2
            exact Or.inr (Or.inl rfl)
          · rcases h2 with h | h
            · subst h
              exact Or.inr (Or.inr rfl)
            · subst h
              exact Or.inl rfl
          · exact absurd rfl h3
      | cons c r =>
          by_cases hp : isPunct c = true
          · have hwc : isWs c = false := punct_not_ws hp
            have hso : step ost c = 6 := step_punct hp host5 host6
            rw [spGo_false_cons_punct hp, spGo_true_eq, List.foldl_cons, hso,
              List.foldl_cons, show step 6 ' ' = 7 from by decide]
            have halive' : r.foldl stepR 0 ≠ 5 := by
              rw [List.foldl_cons, stepR_nonws hwc hrst5] at halive
              exact halive
            have halived : (r.dropWhile isWs).foldl stepR 0 ≠ 5 :=
              rg_dropWhile halive'
            have hhead' : r.dropWhile isWs = [] ∨
                ∃ d rr, r.dropWhile isWs = d :: rr ∧ isWs d = false := by
              cases hdrop : r.dropWhile isWs with
              | nil => left; rfl
              | cons d rr =>
                  right
                  exact ⟨d, rr, rfl, dropWhile_head_false r hdrop⟩
            have hlast' : r.dropWhile isWs = [] ∨
                ∃ z x, r.dropWhile isWs = z ++ [x] ∧ isWs x = false := by
              cases hdrop : r.dropWhile isWs with
              | nil => left; rfl
              | cons d rr =>
                  right
                  rw [← hdrop]
                  have hrne : r ≠ [] := by
                    intro hr
                    rw [hr] at hdrop
                    simp at hdrop
                  have hlr : ∃ z x, r = z ++ [x] ∧ isWs x = false := by
                    rcases hlast with habs | hex
                    · simp at habs
                    · exact last_nonws_tail hex hrne
                  refine last_shape_suffix (a := r.takeWhile isWs) ?_ ?_
                  · rw [hdrop]
                    simp
                  · rw [List.takeWhile_append_dropWhile]
                    exact hlr
            refine ih (r.dropWhile isWs) 0 7 ?_ ?_ halived hlast'
            · have hsub : (r.dropWhile isWs).length ≤ r.length :=
                (List.dropWhile_sublist _).length_le
              simp only [List.length_cons] at hlen
              omega
            · right; left
              exact ⟨rfl, Or.inl rfl, hhead'⟩
          · have hp' : isPunct c = false := by simpa using hp
            rw [spGo_false_cons_other hp', List.foldl_cons]
            by_cases hw : isWs c = true
            · have hcrne : r ≠ [] := by
                rcases hlast with habs | ⟨z, x, heq, hx⟩
                · simp at habs
                · intro hr
                  subst hr
                  cases z with
                  | nil =>
                      simp only [List.nil_append, List.cons.injEq] at heq
                      rw [heq.1] at hw
                      rw [hw] at hx
                      simp at hx
                  | cons a z' => simp at heq
              have hlastr : ∃ z x, r = z ++ [x] ∧ isWs x = false := by
                rcases hlast with habs | hex
                · simp at habs
                · exact last_nonws_tail hex hcrne
              rcases hpair with ⟨h1, h2⟩ | ⟨h1, h2, h3⟩ | ⟨h1, h2, h3⟩
              · subst h1
                subst h2
                have heqs : step 0 c = stepR 0 c := step_ws_eq_stepR hw (by omega)
                have h5' : stepR 0 c ≠ 5 := by
                  intro hcontra
                  rw [List.foldl_cons, hcontra, foldl_stepR_dead] at halive
                  exact halive rfl
                rw [heqs]
                have halive' : r.foldl stepR (stepR 0 c) ≠ 5 := by
                  rw [List.foldl_cons] at halive
                  exact halive
                refine ih r (stepR 0 c) (stepR 0 c) ?_ ?_ halive' (Or.inr hlastr)
                · simp only [List.length_cons] at hlen
                  omega
                · right; right
                  refine ⟨rfl, ?_, hcrne⟩
                  rcases stepR_ws_run 0 hw (by omega) with h | h | h | h | h
                  · exact Or.inl h
                  · exact Or.inr (Or.inl h)
                  · exact Or.inr (Or.inr (Or.inl h))
                  · exact Or.inr (Or.inr (Or.inr h))
                  · exact absurd h h5'
              · rcases h3 with habs | ⟨d, rr, heq, hwd⟩
                · simp at habs
                · injection heq with hdc _
                  rw [hdc] at hw
                  rw [hw] at hwd
                  simp at hwd
              · have hrun : rst = 0 ∨ rst = 1 ∨ rst = 2 ∨ rst = 3 ∨ rst = 4 := by
                  rcases h2 with h | h | h | h <;> omega
                have heqs : step ost c = stepR rst c := by
                  rw [← h1]
                  exact step_ws_eq_stepR hw hrun
                have h5' : stepR rst c ≠ 5 := by
                  intro hcontra
                  rw [List.foldl_cons, hcontra, foldl_stepR_dead] at halive
                  exact halive rfl
                rw [heqs]
                have halive' : r.foldl stepR (stepR rst c) ≠ 5 := by
                  rw [List.foldl_cons] at halive
                  exact halive
                refine ih r (stepR rst c) (stepR rst c) ?_ ?_ halive' (Or.inr hlastr)
                · simp only [List.length_cons] at hlen
                  omega
                · right; right
                  refine ⟨rfl, ?_, hcrne⟩
                  rcases stepR_ws_run rst hw hrun with h | h | h | h | h
                  · exact Or.inl h
                  · exact Or.inr (Or.inl h)
                  · exact Or.inr (Or.inr (Or.inl h))
                  · exact Or.inr (Or.inr (Or.inr h))
                  · exact absurd h h5'
            · have hw' : isWs c = false := by simpa using hw
              have hso : step ost c = 0 := step_nonws_nonpunct hw' hp' host5 host6
              rw [hso]
              have halive' : r.foldl stepR 0 ≠ 5 := by
                rw [List.foldl_cons, stepR_nonws hw' hrst5] at halive
                exact halive
              have hlast' : r = [] ∨ ∃ z x, r = z ++ [x] ∧ isWs x = false := by
                rcases eq_or_ne r [] with hr | hr
                · left; exact hr
                · right
                  rcases hlast with habs | hex
                  · simp at habs
                  · exact last_nonws_tail hex hr
              refine ih r 0 0 ?_ (Or.inl ⟨rfl, rfl⟩) halive' hlast'
              simp only [List.length_cons] at hlen
              omega

/-- The punctuation-space pass produces a normal form from any
run-clean, trimmed input. -/
theorem sp_norm {t : List Char} (hrg : RunsGood t)
    (hhead : t = [] ∨ ∃ c r, t = c :: r ∧ isWs c = false)
    (hlast : t = [] ∨ ∃ z x, t = z ++ [x] ∧ isWs x = false) :
    isNormal (spGo false t) :=
  sp_aux t.length t 0 8 (le_refl _)
    (Or.inr (Or.inl ⟨rfl, Or.inr rfl, hhead⟩)) hrg hlast

/-- The normalization pass always produces a normal form. -/
theorem normalizeResp_normal (s : List Char) : isNormal (normalizeResp s) := by
  unfold normalizeResp
  refine sp_norm ?_ ?_ ?_
  · exact rg_trim (RunsGood_collapseBlank s)
  · exact trim_head (collapseBlank s)
  · exact trim_last (collapseBlank s)

/-- The three chained replaces are idempotent. -/
theorem normalizeResp_idem (s : List Char) :
    normalizeResp (normalizeResp s) = normalizeResp s :=
  normalize_fix (normalizeResp_normal s)

set_option maxRecDepth 40000 in
/-- C6 counterexample: 160 letters with no sentence break.  The first
pass appends a final period and re-paragraphs, producing a text that
still has more than 150 characters after its sole blank line, so the
second pass re-paragraphs again and the output changes. -/
theorem C6_counterexample :
    postProcessList (postProcessList (List.replicate 160 'a')) ≠
      postProcessList (List.replicate 160 'a') := by
  decide

/-- C6 (amended): post-processing is idempotent whenever the
re-paragraphing pass is not triggered, i.e. when the text after the
three replaces is at most 150 characters long or already contains a
blank line.  (Unrestricted idempotence fails: see the counterexample.) -/
theorem C6_postprocess_idem_amended (x : List Char)
    (h : (normalizeResp x).length ≤ 150 ∨ hasBlank (normalizeResp x) = true) :
    postProcessList (postProcessList x) = postProcessList x := by
  have hguard : (decide (150 < (normalizeResp x).length) &&
      !hasBlank (normalizeResp x)) = false := by
    rcases h with h | h
    · have h2 : ¬ (150 < (normalizeResp x).length) := by omega
      simp [h2]
    · simp [h]
  have h1 : postProcessList x = normalizeResp x := by
    simp only [postProcessList]
    rw [if_neg (by rw [hguard]; exact Bool.false_ne_true)]
  rw [h1]
  simp only [postProcessList, normalizeResp_idem]
  rw [if_neg (by rw [hguard]; exact Bool.false_ne_true)]

theorem C6_postprocess_idem_amended_witness :
    postProcessList (postProcessList ['h', 'o', 'l', 'a']) =
      postProcessList ['h', 'o', 'l', 'a'] :=
  C6_postprocess_idem_amended ['h', 'o', 'l', 'a'] (Or.inl (by decide))

end Lyabot
